import Mathlib

/-!
Verification of the ShiftPilot slot-assignment engine.

This file gives a shallow embedding of the scheduler core:
`src/backend/scheduler/model.py`, `src/backend/scheduler/engine.py`,
`src/backend/scheduler/tournament.py`, and the legacy local-search refiner
`src/_old/Backend_Seed/scheduler_app/engine/local_search.py`, together with
theorems settling the frozen claims about it.

Modelling conventions:
- Python `date`/`datetime` values are proleptic-Gregorian ordinals (`Int`,
  matching `date.toordinal`); `timedelta(days=n)` is integer addition,
  and the calendar month is recomputed from the ordinal where the source
  consults `date.month`.
- Python floats (penalties, preference weights, jitter) are modelled as
  exact rationals; the engine only adds, scales and compares these values.
- Python dicts are association lists with insert-or-overwrite update, which
  preserves dict insertion order and last-value-wins semantics.
- `random.Random` is modelled as an abstract deterministic stream: a pure
  function from a call counter to the value produced by that call
  (`RngSpec`).  All claims about the engine are universally quantified over
  this stream, which subsumes every concrete seed.
-/

namespace ShiftPilot

/-- `model.DAYS`: the six working weekday names, in order. -/
def DAYS : List String := ["Mon", "Tue", "Wed", "Thu", "Fri", "Sat"]

/-- `model.MWF` membership test (early-week preference group). -/
def isMWF (day : String) : Bool := day == "Mon" || day == "Wed" || day == "Fri"

/-- `model.StaffPreferences`: duty preference weights, lower is preferred. -/
structure StaffPreferences where
  open_mwf : ℚ := 1
  open_tts : ℚ := 1
  mid_mwf : ℚ := 1
  mid_tts : ℚ := 1
  close_mwf : ℚ := 1
  close_tts : ℚ := 1
  deriving DecidableEq, Inhabited

/-- `StaffPreferences.weight_for`: weight of a duty on a weekday group. -/
def StaffPreferences.weight_for (p : StaffPreferences) (duty : String)
    (day_name : String) : ℚ :=
  let duty := duty.toLower
  if isMWF day_name then
    if duty == "open" then p.open_mwf
    else if duty == "mid" then p.mid_mwf
    else if duty == "close" then p.close_mwf
    else 1
  else
    if duty == "open" then p.open_tts
    else if duty == "mid" then p.mid_tts
    else if duty == "close" then p.close_tts
    else 1

/-- `model.StaffMember`.  `availability` is the per-weekday boolean dict. -/
structure StaffMember where
  id : String
  name : String
  role : String
  can_open : Bool := false
  can_close : Bool := false
  can_bleach : Bool := false
  availability : List (String × Bool) := DAYS.map (fun d => (d, true))
  preferences : StaffPreferences := {}
  deriving DecidableEq, Inhabited

/-- `model.DailyRequirement`. -/
structure DailyRequirement where
  day_name : String
  patient_count : ℕ
  tech_openers : ℕ
  tech_mids : ℕ
  tech_closers : ℕ
  rn_count : ℕ
  admin_count : ℕ
  deriving DecidableEq, Inhabited

/-- `model.ConstraintToggles`. -/
structure ConstraintToggles where
  enforce_three_day_cap : Bool := true
  enforce_post_bleach_rest : Bool := true
  enforce_alt_saturdays : Bool := true
  limit_tech_four_days : Bool := false
  limit_rn_four_days : Bool := false
  deriving DecidableEq, Inhabited

/-- `model.ScheduleConfig`.  `start_date` is a date ordinal. -/
structure ScheduleConfig where
  clinic_name : String
  timezone : String
  start_date : Int
  weeks : ℕ
  bleach_day : String
  bleach_rotation : List String
  bleach_cursor : Int := 0
  bleach_frequency : String := "weekly"
  patients_per_tech : ℕ := 4
  patients_per_rn : ℕ := 12
  techs_per_rn : ℕ := 4
  toggles : ConstraintToggles := {}
  deriving DecidableEq, Inhabited

/-- `model.PTOEntry`: a (person, date) leave entry. -/
structure PTOEntry where
  staff_id : String
  date : Int
  deriving DecidableEq, Inhabited

/-- `model.ScheduleSlot`. -/
structure ScheduleSlot where
  day_index : ℕ
  date : Int
  day_name : String
  role : String
  duty : String
  slot_index : ℕ
  is_bleach : Bool := false
  deriving DecidableEq, Inhabited

/-- `engine.OPEN_LABEL`: sentinel staff id of an unfilled assignment. -/
def OPEN_LABEL : String := "OPEN"

/-- `model.Assignment`. -/
structure Assignment where
  slot : ScheduleSlot
  staff_id : String
  notes : List String := []
  deriving DecidableEq, Inhabited

/-- `model.ScheduleResult`. -/
structure ScheduleResult where
  assignments : List Assignment
  bleach_cursor : Int
  total_penalty : ℚ
  stats : List (String × ℚ)
  seed : Option Int := none
  deriving DecidableEq, Inhabited

/-- `engine._StaffState`: per-person mutable run state. -/
structure StaffState where
  assignments : List Assignment := []
  worked_day_indices : List ℕ := []
  last_bleach_day : Option ℕ := none
  last_saturday_week : Option ℕ := none
  week_assignments : List (ℕ × List ℕ) := []
  deriving DecidableEq, Inhabited

/-- `engine.FAIRNESS_WEIGHT`. -/
def FAIRNESS_WEIGHT : ℚ := 1 / 2

/-- `engine.BLEACH_PENALTY`. -/
def BLEACH_PENALTY : ℚ := 5

/-- `engine.JITTER_SCALE`. -/
def JITTER_SCALE : ℚ := 1 / 1000

/-! ### Association-list dictionaries (Python `dict` semantics) -/

/-- First-match lookup in an association list (dict lookup: keys are kept
unique by `alSet`, so first match is the entry). -/
def alGet {α : Type} (l : List (String × α)) (k : String) : Option α :=
  (l.find? (fun kv => kv.1 == k)).map (fun kv => kv.2)

/-- Insert-or-overwrite, preserving dict insertion order. -/
def alSet {α : Type} : List (String × α) → String → α → List (String × α)
  | [], k, v => [(k, v)]
  | kv :: rest, k, v =>
      if kv.1 == k then (k, v) :: rest else kv :: alSet rest k v

/-- Nat-keyed first-match lookup (for per-week worked-day sets). -/
def alGetN {α : Type} (l : List (ℕ × α)) (k : ℕ) : Option α :=
  (l.find? (fun kv => kv.1 == k)).map (fun kv => kv.2)

/-- `week_assignments.setdefault(week, set()).add(day)`: add `day` to the
week's set of worked day indices. -/
def weekAdd : List (ℕ × List ℕ) → ℕ → ℕ → List (ℕ × List ℕ)
  | [], w, d => [(w, [d])]
  | kv :: rest, w, d =>
      if kv.1 == w then
        (w, if kv.2.contains d then kv.2 else kv.2 ++ [d]) :: rest
      else kv :: weekAdd rest w d

/-! ### Calendar months (for the quarterly special-duty frequency) -/

/-- Month (1-12) of a day count relative to 1970-01-01, by the standard
civil-from-days conversion (floor divisions). -/
def monthOfEpochDay (z : Int) : ℕ :=
  let z := z + 719468
  let era := z / 146097
  let doe := z - era * 146097
  let yoe := (doe - doe / 1460 + doe / 36524 - doe / 146096) / 365
  let doy := doe - (365 * yoe + yoe / 4 - yoe / 100)
  let mp := (5 * doy + 2) / 153
  (mp + (if mp < 10 then 3 else -9)).toNat

/-- `date.month` of a proleptic-Gregorian ordinal (Python `toordinal`;
ordinal 719163 is 1970-01-01). -/
def monthOfOrdinal (o : Int) : ℕ := monthOfEpochDay (o - 719163)

/-! ### Requirement normalization and slot building (`engine._build_slots`) -/

/-- The per-weekday requirement dict threaded through slot building. -/
abbrev ReqMap := List (String × DailyRequirement)

/-- `engine._ensure_requirements`: build the weekday dict and fail if any of
the six weekdays is missing. -/
def ensure_requirements (requirements : List DailyRequirement) :
    Except String ReqMap :=
  let req_map := requirements.foldl (fun m req => alSet m req.day_name req) []
  let missing := DAYS.filter (fun d => (alGet req_map d).isNone)
  if missing.isEmpty then .ok req_map
  else .error ("Missing requirements for day(s): " ++ String.intercalate ", " missing)

/-- Dict lookup of a weekday requirement; the default is unreachable because
`ensure_requirements` guarantees all six weekdays are present. -/
def reqGet (m : ReqMap) (day : String) : DailyRequirement :=
  (alGet m day).getD default

/-- `math.ceil(a / b)` on non-negative integers (`0` when `b = 0` is
unreachable: the source guards each ratio against falsy zero). -/
def ceilDiv (a b : ℕ) : ℕ := (a + b - 1) / b

/-- Build the slots of one horizon day: weekday adjustments (Saturday admin
blackout, tech/RN ratio auto-scaling, memoized back into the dict), then one
`ScheduleSlot` per coverage unit.  `w` is the week index, `p` the position of
`day_name` within `DAYS`, `dIdx` the running day counter. -/
def buildDay (cfg : ScheduleConfig) (rm : ReqMap) (w p : ℕ) (day_name : String)
    (dIdx : ℕ) : ReqMap × List ScheduleSlot :=
  let req0 := reqGet rm day_name
  -- No admin coverage on Saturdays
  let req1 :=
    if day_name == "Sat" && req0.admin_count != 0 then { req0 with admin_count := 0 }
    else req0
  let rm1 :=
    if day_name == "Sat" && req0.admin_count != 0 then alSet rm day_name req1 else rm
  -- ensure tech counts meet patient ratios
  let tech_total1 := req1.tech_openers + req1.tech_mids + req1.tech_closers
  let need_tech :=
    if cfg.patients_per_tech != 0 then ceilDiv req1.patient_count cfg.patients_per_tech else 0
  let req2 :=
    if need_tech > tech_total1 then
      { req1 with tech_mids := req1.tech_mids + (need_tech - tech_total1) }
    else req1
  let rm2 := if need_tech > tech_total1 then alSet rm1 day_name req2 else rm1
  let tech_total := if need_tech > tech_total1 then need_tech else tech_total1
  let rn_min_from_tech :=
    if cfg.techs_per_rn != 0 then ceilDiv tech_total cfg.techs_per_rn else 0
  let rn_min_from_patients :=
    if cfg.patients_per_rn != 0 then ceilDiv req2.patient_count cfg.patients_per_rn else 0
  let rn_needed := max req2.rn_count (max rn_min_from_patients rn_min_from_tech)
  let req :=
    if rn_needed != req2.rn_count then { req2 with rn_count := rn_needed } else req2
  let rm3 := if rn_needed != req2.rn_count then alSet rm2 day_name req else rm2
  let schedule_date : Int := cfg.start_date + (w * 7 + p : ℕ)
  let add_slot (role duty : String) (count : ℕ) (bleach : Bool) : List ScheduleSlot :=
    (List.range count).map (fun idx =>
      { day_index := dIdx, date := schedule_date, day_name := day_name,
        role := role, duty := duty, slot_index := idx + 1,
        is_bleach := bleach && idx == 0 })
  let bleach :=
    if req.tech_closers > 0 then
      let freq := (if cfg.bleach_frequency == "" then "weekly" else cfg.bleach_frequency).toLower
      if freq == "weekly" then day_name == cfg.bleach_day
      else if freq == "quarterly" then
        w == 1 && [2, 5, 8, 11].contains (monthOfOrdinal schedule_date)
          && day_name == cfg.bleach_day
      else day_name == cfg.bleach_day
    else false
  (rm3,
    add_slot "Tech" "open" req.tech_openers false
      ++ add_slot "Tech" "mid" req.tech_mids false
      ++ add_slot "Tech" "close" req.tech_closers bleach
      ++ add_slot "RN" "coverage" req.rn_count false
      ++ add_slot "Admin" "coverage" req.admin_count false)

/-- One week of `engine._build_slots`: the inner `enumerate(DAYS)` loop.  The
day counter advances by one per day, so week `w` starts at counter `dIdx`. -/
def buildWeek (cfg : ScheduleConfig) (rm : ReqMap) (w dIdx : ℕ) :
    ReqMap × List ScheduleSlot :=
  let r0 := buildDay cfg rm w 0 "Mon" dIdx
  let r1 := buildDay cfg r0.1 w 1 "Tue" (dIdx + 1)
  let r2 := buildDay cfg r1.1 w 2 "Wed" (dIdx + 2)
  let r3 := buildDay cfg r2.1 w 3 "Thu" (dIdx + 3)
  let r4 := buildDay cfg r3.1 w 4 "Fri" (dIdx + 4)
  let r5 := buildDay cfg r4.1 w 5 "Sat" (dIdx + 5)
  (r5.1, r0.2 ++ r1.2 ++ r2.2 ++ r3.2 ++ r4.2 ++ r5.2)

/-- The outer `for week in range(cfg.weeks)` loop of `engine._build_slots`,
threading the memoized requirement dict across weeks. -/
def buildWeeks (cfg : ScheduleConfig) (rm : ReqMap) (w : ℕ) (wLeft : ℕ)
    (dIdx : ℕ) : ReqMap × List ScheduleSlot :=
  match wLeft with
  | 0 => (rm, [])
  | wLeft + 1 =>
      let rw := buildWeek cfg rm w dIdx
      let rr := buildWeeks cfg rw.1 (w + 1) wLeft (dIdx + 6)
      (rr.1, rw.2 ++ rr.2)

/-- `engine._build_slots`. -/
def build_slots (rm : ReqMap) (cfg : ScheduleConfig) : List ScheduleSlot :=
  (buildWeeks cfg rm 0 cfg.weeks 0).2

/-! ### Eligibility, toggles, scoring (`engine`) -/

/-- `engine._pto_lookup` membership: is `(sid, d)` a leave day?  (The source
builds a dict of date sets; only membership is ever consulted.) -/
def ptoHas (pto : List PTOEntry) (sid : String) (d : Int) : Bool :=
  pto.any (fun e => e.staff_id == sid && e.date == d)

/-- `engine._is_available`: hard per-slot admissibility. -/
def is_available (member : StaffMember) (slot : ScheduleSlot)
    (pto : List PTOEntry) : Bool :=
  if (alGet member.availability slot.day_name).getD false == false then false
  else if ptoHas pto member.id slot.date then false
  else if member.role != slot.role then false
  else if slot.role == "Tech" then
    if slot.duty == "open" && !member.can_open then false
    else if slot.duty == "close" && !member.can_close then false
    else if slot.is_bleach && !member.can_bleach then false
    else true
  else true

/-- The four `ignore_*` keyword flags of `engine._violates_toggles` and
`gather_candidates`. -/
structure IgnoreFlags where
  post : Bool := false
  week : Bool := false
  three : Bool := false
  alt : Bool := false
  deriving DecidableEq, Inhabited

/-- Integer membership test against a list of day indices (the source
compares `slot.day_index - 1` and `- 2`, which may be negative, against
non-negative worked day indices). -/
def memInt (x : Int) (l : List ℕ) : Bool := l.any (fun n => (n : Int) == x)

/-- `engine._violates_toggles`: the relaxable rules, each skippable. -/
def violates_toggles (ms : StaffState) (slot : ScheduleSlot)
    (cfg : ScheduleConfig) (ig : IgnoreFlags) : Bool :=
  let toggles := cfg.toggles
  let week_idx := slot.day_index / 6
  -- No three consecutive days (sorting `recent` does not affect membership;
  -- the source's early `return True`s are the disjuncts below)
  let recent := ms.worked_day_indices
  let three_day := toggles.enforce_three_day_cap && !ig.three
      && decide (2 ≤ recent.length)
      && memInt ((slot.day_index : Int) - 1) recent
      && memInt ((slot.day_index : Int) - 2) recent
  -- Rest after bleach (no day after)
  let post_bleach := toggles.enforce_post_bleach_rest && !ig.post &&
      (match ms.last_bleach_day with
       | some lb => slot.day_index == lb + 1
       | none => false)
  -- No consecutive Saturdays
  let alt_sat := toggles.enforce_alt_saturdays && !ig.alt && slot.day_name == "Sat" &&
      (match ms.last_saturday_week with
       | some lw => (lw : Int) == (week_idx : Int) - 1
       | none => false)
  let tech_week := toggles.limit_tech_four_days && !ig.week && slot.role == "Tech" &&
      (let worked := (alGetN ms.week_assignments week_idx).getD []
       !worked.contains slot.day_index && decide (4 ≤ worked.length))
  let rn_week := toggles.limit_rn_four_days && !ig.week && slot.role == "RN" &&
      (let worked := (alGetN ms.week_assignments week_idx).getD []
       !worked.contains slot.day_index && decide (4 ≤ worked.length))
  three_day || post_bleach || alt_sat || tech_week || rn_week

/-- `engine._preference_penalty`. -/
def preference_penalty (member : StaffMember) (slot : ScheduleSlot) : ℚ :=
  if slot.role != "Tech" then 1
  else member.preferences.weight_for slot.duty slot.day_name

/-- `engine._score_candidate`. -/
def score_candidate (ms : StaffState) (base_penalty fairness_weight : ℚ) : ℚ :=
  base_penalty + fairness_weight * ms.assignments.length

/-! ### The single-pass generator (`engine.generate_schedule`) -/

/-- Abstract model of `random.Random`: a deterministic stream indexed by a
call counter.  `shuffle k l` is the result of the `k`-th rng call when it is
`rng.shuffle` applied to `l`; `rand k` is the value of the `k`-th call when
it is `rng.random()`.  Every theorem below is universally quantified over
this stream, which subsumes every concrete seed of the Mersenne Twister. -/
structure RngSpec where
  shuffle : ℕ → List StaffMember → List StaffMember
  rand : ℕ → ℚ

/-- The identity stream (shuffles leave the list unchanged, jitter 0):
a concrete instance used by witnesses. -/
def idRng : RngSpec := { shuffle := fun _ l => l, rand := fun _ => 0 }

/-- `staff_by_role.get(slot.role, [])`: the members of one role, in input
order (built by a `defaultdict(list)` in the source). -/
def staffByRole (staff : List StaffMember) (role : String) : List StaffMember :=
  staff.filter (fun m => m.role == role)

/-- `states`: dict from staff id to run state, built in staff order. -/
def initStates (staff : List StaffMember) : List (String × StaffState) :=
  staff.foldl (fun d m => alSet d m.id {}) []

/-- `staff_map`: dict from staff id to the member record. -/
def staffDict (staff : List StaffMember) : List (String × StaffMember) :=
  staff.foldl (fun d m => alSet d m.id m) []

/-- `states[member.id]` (always present in source runs; the default is only
reachable if the abstract shuffle invents members, which a real
`rng.shuffle` permutation never does). -/
def stateOf (states : List (String × StaffState)) (sid : String) : StaffState :=
  (alGet states sid).getD {}

/-- `engine.generate_schedule.gather_candidates`: the admissible,
ladder-passing `(member, state)` pairs among the shuffled role list. -/
def gather_candidates (cfg : ScheduleConfig) (pto : List PTOEntry)
    (states : List (String × StaffState)) (slot : ScheduleSlot)
    (roleCands : List StaffMember) (ig : IgnoreFlags) :
    List (StaffMember × StaffState) :=
  roleCands.filterMap (fun member =>
    let state := stateOf states member.id
    if state.worked_day_indices.contains slot.day_index then none
    else if !is_available member slot pto then none
    else if violates_toggles state slot cfg ig then none
    else some (member, state))

/-- The ordinary-slot relaxation tiers, in the order tried by the source:
alt Saturdays, then also the 3-day cap, then also the weekly cap, then also
post-bleach rest.  Each entry is `(ignore flags, diagnostic note)`. -/
def ordinaryTiers : List (IgnoreFlags × String) :=
  [({ alt := true }, "Relax: alt Saturdays"),
   ({ alt := true, three := true }, "Relax: 3-day cap"),
   ({ alt := true, three := true, week := true }, "Relax: 4-day/week cap"),
   ({ alt := true, three := true, week := true, post := true },
     "Relax: post-bleach rest")]

/-- Walk a tier list, keeping the first tier with at least one survivor
(the `for ... if candidates: break` loop of the source). -/
def ladderScan (cfg : ScheduleConfig) (pto : List PTOEntry)
    (states : List (String × StaffState)) (slot : ScheduleSlot)
    (roleCands : List StaffMember) :
    List (IgnoreFlags × String) → List (StaffMember × StaffState) × Option String
  | [] => ([], none)
  | (ig, note) :: rest =>
      let cands := gather_candidates cfg pto states slot roleCands ig
      if cands.isEmpty then ladderScan cfg pto states slot roleCands rest
      else (cands, some note)

/-- Candidate gathering for one slot: the strict pass, then — only when it
finds nobody — the ordinary relaxation ladder. -/
def candidatesFor (cfg : ScheduleConfig) (pto : List PTOEntry)
    (states : List (String × StaffState)) (slot : ScheduleSlot)
    (roleCands : List StaffMember) :
    List (StaffMember × StaffState) × Option String :=
  let strict := gather_candidates cfg pto states slot roleCands {}
  if strict.isEmpty then ladderScan cfg pto states slot roleCands ordinaryTiers
  else (strict, none)

/-- The special-duty relaxation tiers (`relax_options` in the source).  The
first component of each tuple is `ignore_post_bleach`: it is `false` at every
tier — post-bleach rest is treated as hard for bleach slots. -/
def bleachTiers : List (IgnoreFlags × Option String) :=
  [({}, none),
   ({ alt := true }, some "Relax: alt Saturdays"),
   ({ alt := true, three := true }, some "Relax: 3-day cap"),
   ({ alt := true, three := true, week := true }, some "Relax: 4-day/week cap")]

/-- One tier of the rotation walk: try rotation members starting at the
cursor, wrapping modulo the rotation length, and keep the first member that
exists, is admissible, is not already working that day, and passes the
toggles at this tier.  Returns the member, their state and the rotation
index used. -/
def scanRotationTier (cfg : ScheduleConfig) (pto : List PTOEntry)
    (staff_map : List (String × StaffMember))
    (states : List (String × StaffState)) (cursor : Int)
    (slot : ScheduleSlot) (ig : IgnoreFlags) :
    Option (StaffMember × StaffState × ℕ) :=
  (List.range cfg.bleach_rotation.length).findSome? (fun offset =>
    let idx := ((cursor + (offset : ℕ)) % (cfg.bleach_rotation.length : ℕ)).toNat
    match cfg.bleach_rotation.get? idx with
    | none => none
    | some rid =>
      match alGet staff_map rid with
      | none => none
      | some member =>
        match alGet states rid with
        | none => none
        | some state =>
          if state.worked_day_indices.contains slot.day_index then none
          else if !is_available member slot pto then none
          else if violates_toggles state slot cfg ig then none
          else some (member, state, idx))

/-- The special-duty rotation selection: tiers outermost (the whole rotation
is tried at each tier before relaxing further), never touching post-bleach
rest.  Returns the chosen `(member, state, rotation index, relax note)`. -/
def selectBleach (cfg : ScheduleConfig) (pto : List PTOEntry)
    (staff_map : List (String × StaffMember))
    (states : List (String × StaffState)) (cursor : Int)
    (slot : ScheduleSlot) : Option (StaffMember × StaffState × ℕ × Option String) :=
  bleachTiers.findSome? (fun tier =>
    (scanRotationTier cfg pto staff_map states cursor slot tier.1).map
      (fun c => (c.1, c.2.1, c.2.2, tier.2)))

/-- `[note] if note else []`. -/
def optList (o : Option String) : List String :=
  match o with
  | some s => [s]
  | none => []

/-- The generator's running state: per-person states, the assignment list,
the rotation cursor, the penalty accumulator, and the rng call counter. -/
structure GenState where
  states : List (String × StaffState)
  assignments : List Assignment
  bleach_cursor : Int
  total_penalty : ℚ
  rngK : ℕ
  deriving DecidableEq, Inhabited

/-- State mutation on a successful fill (`# Update state` in the source):
append the assignment, record the worked day and week-day, update bleach and
Saturday markers, advance the rotation cursor when a rotation pick filled a
bleach slot, and accumulate the penalty of the mutated state. -/
def applyAssign (cfg : ScheduleConfig) (gs : GenState) (k : ℕ)
    (slot : ScheduleSlot) (chosen : StaffMember) (st : StaffState)
    (note : Option String) (rotIdx : Option ℕ) (base_penalty : ℚ) : GenState :=
  let assigned : Assignment := { slot := slot, staff_id := chosen.id, notes := optList note }
  let week_idx := slot.day_index / 6
  let st := { st with
    assignments := st.assignments ++ [assigned],
    worked_day_indices := st.worked_day_indices ++ [slot.day_index],
    week_assignments := weekAdd st.week_assignments week_idx slot.day_index }
  let cursor :=
    if slot.is_bleach && slot.role == "Tech" then
      match rotIdx with
      | some i => ((i : ℕ) + 1 : Int) % (cfg.bleach_rotation.length : ℕ)
      | none => gs.bleach_cursor
    else gs.bleach_cursor
  let st :=
    if slot.is_bleach && slot.role == "Tech" then
      { st with last_bleach_day := some slot.day_index }
    else st
  let st :=
    if slot.day_name == "Sat" then { st with last_saturday_week := some week_idx }
    else st
  { states := alSet gs.states chosen.id st,
    assignments := gs.assignments ++ [assigned],
    bleach_cursor := cursor,
    total_penalty := gs.total_penalty
      + score_candidate st base_penalty FAIRNESS_WEIGHT,
    rngK := k }

/-- Candidate scoring for ordinary slots: preference penalty (plus the
off-rotation surcharge, unreachable here because this branch requires a
non-bleach slot), fairness workload term, and tie-break jitter; the minimum
under `(jittered score, member id)` wins, first on ties (stable sort). -/
def pickScored (cfg : ScheduleConfig) (rng : RngSpec) (k : ℕ)
    (slot : ScheduleSlot) (cands : List (StaffMember × StaffState)) :
    Option (ℚ × ℚ × StaffMember × StaffState) :=
  let scored := (cands.enum).map (fun c =>
    let member := c.2.1
    let state := c.2.2
    let base := preference_penalty member slot
    let base :=
      if slot.is_bleach && !cfg.bleach_rotation.isEmpty &&
          !cfg.bleach_rotation.contains member.id then base + BLEACH_PENALTY
      else base
    let score := score_candidate state base FAIRNESS_WEIGHT
    let jitter := rng.rand (k + c.1) * JITTER_SCALE
    (score + jitter, score, member, state))
  scored.foldl (fun best cur =>
    match best with
    | none => some cur
    | some b =>
        if cur.1 < b.1 || (cur.1 == b.1 && decide (cur.2.2.1.id < b.2.2.1.id))
        then some cur else some b) none

/-- One iteration of the slot loop of `engine.generate_schedule`. -/
def processSlot (staff : List StaffMember) (cfg : ScheduleConfig)
    (pto : List PTOEntry) (rng : RngSpec) (gs : GenState)
    (slot : ScheduleSlot) : GenState :=
  let roleCands0 := staffByRole staff slot.role
  let roleCands :=
    if roleCands0.isEmpty then roleCands0 else rng.shuffle gs.rngK roleCands0
  let k := if roleCands0.isEmpty then gs.rngK else gs.rngK + 1
  let cands := candidatesFor cfg pto gs.states slot roleCands
  let candidates := cands.1
  let relaxed_note := cands.2
  if slot.is_bleach && !cfg.bleach_rotation.isEmpty then
    match selectBleach cfg pto (staffDict staff) gs.states gs.bleach_cursor slot with
    | some (member, state, idx, note) =>
        applyAssign cfg gs k slot member state note (some idx)
          (preference_penalty member slot)
    | none =>
        -- rotation exhausted: unfilled, cursor still advances
        { gs with
          assignments := gs.assignments ++
            [{ slot := slot, staff_id := OPEN_LABEL,
               notes := ["Bleach rotation unavailable"] ++ optList relaxed_note
                 ++ ["Needs coverage"] }],
          bleach_cursor := (gs.bleach_cursor + 1) % (cfg.bleach_rotation.length : ℕ),
          rngK := k }
  else if slot.is_bleach then
    -- bleach slot with an empty rotation: never handed to the scorer
    { gs with
      assignments := gs.assignments ++
        [{ slot := slot, staff_id := OPEN_LABEL,
           notes := optList relaxed_note ++ ["Needs coverage"] }],
      rngK := k }
  else
    match pickScored cfg rng k slot candidates with
    | none =>
        { gs with
          assignments := gs.assignments ++
            [{ slot := slot, staff_id := OPEN_LABEL,
               notes := optList relaxed_note ++ ["Needs coverage"] }],
          rngK := k }
    | some (_, score_value, chosen, chosen_state) =>
        applyAssign cfg gs (k + candidates.length) slot chosen chosen_state none none
          (score_value - FAIRNESS_WEIGHT * chosen_state.assignments.length)

/-- The cursor the slot loop starts from: the configured cursor reduced
modulo the rotation length (`0` for an empty rotation). -/
def initialCursor (cfg : ScheduleConfig) : Int :=
  if cfg.bleach_rotation.isEmpty then 0
  else cfg.bleach_cursor % (cfg.bleach_rotation.length : ℕ)

/-- `engine.generate_schedule`: validate requirements, build the slots, run
the slot loop, and package the result. -/
def generate_schedule (staff : List StaffMember)
    (requirements : List DailyRequirement) (cfg : ScheduleConfig)
    (pto_entries : List PTOEntry) (rng : RngSpec) (rng_seed : Option Int) :
    Except String ScheduleResult :=
  match ensure_requirements requirements with
  | .error e => .error e
  | .ok rm =>
    let slots := build_slots rm cfg
    let init : GenState :=
      { states := initStates staff,
        assignments := [],
        bleach_cursor := initialCursor cfg,
        total_penalty := 0,
        rngK := 0 }
    let fin := slots.foldl (processSlot staff cfg pto_entries rng) init
    .ok { assignments := fin.assignments,
          bleach_cursor := fin.bleach_cursor,
          total_penalty := fin.total_penalty,
          stats := fin.states.map (fun kv => (kv.1, (kv.2.assignments.length : ℚ))),
          seed := rng_seed }

/-! ### Tournament search (`tournament.run_tournament`) -/

/-- The seed of trial `i`: `base_seed + i` when a base seed is supplied,
otherwise the `i`-th value drawn from `random.Random(base_seed).randrange(1 << 30)`
(modelled as the abstract entropy stream `stream`). -/
def trialSeed (base_seed : Option Int) (stream : ℕ → Int) (i : ℕ) : Int :=
  match base_seed with
  | some b => b + i
  | none => stream i

/-- One tournament trial: a full generator run at the given seed, the seed
recorded on the result (`result.seed = seed` in the source). -/
def tournamentTrial (staff : List StaffMember)
    (requirements : List DailyRequirement) (cfg : ScheduleConfig)
    (pto_entries : List PTOEntry) (genRng : Int → RngSpec) (seed : Int) :
    Except String (ScheduleResult × Int) :=
  (generate_schedule staff requirements cfg pto_entries (genRng seed)
    (some seed)).map (fun r => ({ r with seed := some seed }, seed))

/-- Run the trials in order, stopping at the first raised error (an error in
any trial propagates out of the tournament, as an uncaught exception does). -/
def runTrials (f : ℕ → Except String (ScheduleResult × Int)) :
    List ℕ → Except String (List (ScheduleResult × Int))
  | [] => .ok []
  | i :: is =>
      match f i with
      | .error e => .error e
      | .ok x =>
          match runTrials f is with
          | .error e => .error e
          | .ok xs => .ok (x :: xs)

/-- The running-best fold: keep the incumbent unless the new trial's total
penalty is strictly lower. -/
def pickBest (acc : Option (ScheduleResult × Int)) :
    List (ScheduleResult × Int) → Option (ScheduleResult × Int)
  | [] => acc
  | x :: xs =>
      pickBest
        (match acc with
         | none => some x
         | some b => if x.1.total_penalty < b.1.total_penalty then some x else some b)
        xs

/-- The tournament body over an explicit seed-of-trial function. -/
def tournamentCore (staff : List StaffMember)
    (requirements : List DailyRequirement) (cfg : ScheduleConfig)
    (pto_entries : List PTOEntry) (n : ℕ) (seedOf : ℕ → Int)
    (genRng : Int → RngSpec) : Except String (ScheduleResult × Int) :=
  match runTrials (fun i => tournamentTrial staff requirements cfg pto_entries
      genRng (seedOf i)) (List.range n) with
  | .error e => .error e
  | .ok results =>
      match pickBest none results with
      | none => .error "assert best_result is not None"
      | some (r, s) => .ok ({ r with seed := some s }, s)

/-- `tournament.run_tournament`: `max(1, trials)` independently seeded
generator runs; the lowest-penalty trial (first found on ties) is returned
together with its seed. -/
def run_tournament (staff : List StaffMember)
    (requirements : List DailyRequirement) (cfg : ScheduleConfig)
    (pto_entries : List PTOEntry) (trials : Int) (base_seed : Option Int)
    (stream : ℕ → Int) (genRng : Int → RngSpec) :
    Except String (ScheduleResult × Int) :=
  tournamentCore staff requirements cfg pto_entries (max 1 trials).toNat
    (trialSeed base_seed stream) genRng

namespace V2

/-! ### The legacy Local-Search Refiner
(`src/_old/Backend_Seed/scheduler_app/engine/local_search.py`).

Slots here are the v2 dicts: a role plus naive start/end datetimes, modelled
as integer second timestamps relative to the epoch. -/

/-- Modelled from the spec: `local_search` imports `DOW` from the missing
module `slots_v2`; per the spec's data model the per-weekday availability
keys are the seven weekday names in `datetime.weekday()` order (as in the
sibling `slot_builder.DOWS`). -/
def DOW : List String := ["Mon", "Tue", "Wed", "Thu", "Fri", "Sat", "Sun"]

/-- `datetime.weekday()` of a second timestamp (Mon = 0; the epoch day
1970-01-01 is a Thursday, index 3). -/
def weekdayOf (t : Int) : ℕ := ((t / 86400 + 3) % 7).toNat

/-- A v2 duty slot as used by the refiner: `slot["role"]`,
`slot["start_dt"]`, `slot["end_dt"]`. -/
structure SlotV2 where
  role : String
  start_dt : Int
  end_dt : Int
  deriving DecidableEq, Inhabited

/-- A v2 staff record as consulted by `_feasible_for_staff`. -/
structure StaffV2 where
  id : String
  availability : List (String × Bool) := []
  deriving DecidableEq, Inhabited

/-- The v2 config fields consulted by the refiner. -/
structure CfgV2 where
  staff : List StaffV2
  min_rest_hours : ℚ
  max_hours_per_week : ℚ
  deriving DecidableEq, Inhabited

/-- Stable insertion of a `(start, end)` block by start time (equal starts
keep their original order, matching Python's stable sort on `x[0]`). -/
def insertBlock (x : Int × Int) : List (Int × Int) → List (Int × Int)
  | [] => [x]
  | y :: ys => if x.1 ≤ y.1 then x :: y :: ys else y :: insertBlock x ys

/-- `sorted(blocks, key=lambda x: x[0])`. -/
def sortBlocks : List (Int × Int) → List (Int × Int)
  | [] => []
  | x :: xs => insertBlock x (sortBlocks xs)

/-- The first loop of `_feasible_for_staff`: per-block weekday availability
and minimum rest gap, accumulating weekly hours; `none` on violation. -/
def restScan (cfg : CfgV2) (st : StaffV2) :
    List (Int × Int) → Option Int → ℚ → Option ℚ
  | [], _, acc => some acc
  | (s0, s1) :: rest, last_end, acc =>
      let key := DOW.getD (weekdayOf s0) ""
      if !((alGet st.availability key).getD true) then none
      else if (match last_end with
               | some le => decide (((s0 - le : Int) : ℚ) < cfg.min_rest_hours * 3600)
               | none => false) then none
      else restScan cfg st rest (some s1) (acc + ((s1 - s0 : Int) : ℚ) / 3600)

/-- The second loop of `_feasible_for_staff`: no two consecutive (sorted)
blocks overlap in time. -/
def noOverlap : List (Int × Int) → Bool
  | a :: b :: rest => if !(a.2 ≤ b.1 || b.2 ≤ a.1) then false else noOverlap (b :: rest)
  | _ => true

/-- `local_search._feasible_for_staff`: the person exists, every block lands
on an available weekday, rest gaps and the weekly-hours ceiling are
respected, and no two blocks overlap. -/
def feasible_for_staff (staff_id : String) (slots : List SlotV2)
    (cfg : CfgV2) : Bool :=
  match cfg.staff.find? (fun x => x.id == staff_id) with
  | none => false
  | some st =>
      let blocks := sortBlocks (slots.map (fun s => (s.start_dt, s.end_dt)))
      match restScan cfg st blocks none 0 with
      | none => false
      | some weekly_hours =>
          if weekly_hours > cfg.max_hours_per_week then false
          else noOverlap blocks

/-- An assignment row of the refiner: `(slot, staff id or None)`. -/
abbrev Row := SlotV2 × Option String

/-- `role_indices`: dict from role to the positions of its slots, built once
from the initial roster (`setdefault(role, []).append(i)`). -/
def buildRoleIndices (cur : List Row) : List (String × List ℕ) :=
  (cur.enum).foldl (fun d p =>
    match alGet d p.2.1.role with
    | some l => alSet d p.2.1.role (l ++ [p.1])
    | none => alSet d p.2.1.role [p.1]) []

/-- The slot list currently assigned to one person
(`[slot for slot, s in current if s == sid]`). -/
def slotsOf (cur : List Row) (sid : String) : List SlotV2 :=
  cur.filterMap (fun row => if row.2 == some sid then some row.1 else none)

/-- Abstract model of the refiner's `random.Random(rnd_seed)`: per-call
choice of a role key and of a sampled index pair, as a deterministic stream
indexed by a call counter. -/
structure RndV2 where
  choice : ℕ → List String → String
  sample : ℕ → List ℕ → ℕ × ℕ

/-- The refiner's loop state: the working roster, best score seen, accepted
swap count, and the rng call counter. -/
structure LSState where
  current : List Row
  best : ℚ
  accepted : ℕ
  k : ℕ

/-- One iteration of `improve_by_swaps`.  `scoreFn` is the roster score
(modelled from the spec, see `improve_by_swaps`).  Errors model the uncaught
Python exceptions (`rnd.choice` on an empty key list, bad indices); with the
real rng they are unreachable. -/
def lsStep (scoreFn : List Row → CfgV2 → ℚ) (cfg : CfgV2) (rnd : RndV2)
    (roleIndices : List (String × List ℕ)) (keys : List String)
    (st : LSState) : Except String LSState :=
  if keys.isEmpty then .error "IndexError: choice from empty sequence"
  else
    let role := rnd.choice st.k keys
    match alGet roleIndices role with
    | none => .error "KeyError"
    | some idxs =>
        if idxs.length < 2 then .ok { st with k := st.k + 1 }
        else
          let ij := rnd.sample (st.k + 1) idxs
          let i := ij.1
          let j := ij.2
          let k := st.k + 2
          match st.current.get? i with
          | none => .error "IndexError"
          | some rowi =>
            match st.current.get? j with
            | none => .error "IndexError"
            | some rowj =>
              -- `if si is None or sj is None or si == sj: continue`
              match rowi.2 with
              | none => .ok { st with k := k }
              | some si =>
                match rowj.2 with
                | none => .ok { st with k := k }
                | some sj =>
                  if si == sj then .ok { st with k := k }
                  else
                    let slot_i := rowi.1
                    let slot_j := rowj.1
                    let cur1 := (st.current.set i (slot_i, some sj)).set j (slot_j, some si)
                    if feasible_for_staff si (slotsOf cur1 si) cfg &&
                        feasible_for_staff sj (slotsOf cur1 sj) cfg then
                      let new_score := scoreFn cur1 cfg
                      if new_score ≤ st.best then
                        .ok { current := cur1, best := new_score,
                              accepted := st.accepted + 1, k := k }
                      else
                        .ok { st with
                          current := (cur1.set i (slot_i, some si)).set j (slot_j, some sj),
                          k := k }
                    else
                      .ok { st with
                        current := (cur1.set i (slot_i, some si)).set j (slot_j, some sj),
                        k := k }

/-- The `for _ in range(iterations)` loop. -/
def lsLoop (scoreFn : List Row → CfgV2 → ℚ) (cfg : CfgV2) (rnd : RndV2)
    (roleIndices : List (String × List ℕ)) (keys : List String) :
    ℕ → LSState → Except String LSState
  | 0, st => .ok st
  | n + 1, st =>
      match lsStep scoreFn cfg rnd roleIndices keys st with
      | .error e => .error e
      | .ok st' => lsLoop scoreFn cfg rnd roleIndices keys n st'

/-- `local_search.improve_by_swaps`.

`scoreFn` is modelled from the spec: the function `score` imported from
`generate_v2` is absent from the source tree; the spec describes it only as
the roster's aggregate quality score, a pure function of the assignment list
and config, so it is taken here as an arbitrary such function. -/
def improve_by_swaps (scoreFn : List Row → CfgV2 → ℚ) (assignments : List Row)
    (cfg : CfgV2) (iterations : ℕ) (rnd : RndV2) :
    Except String (List Row × ℚ × ℕ) :=
  let current := assignments
  let best := scoreFn current cfg
  let roleIndices := buildRoleIndices current
  let keys := roleIndices.map (fun kv => kv.1)
  match lsLoop scoreFn cfg rnd roleIndices keys iterations
      { current := current, best := best, accepted := 0, k := 0 } with
  | .error e => .error e
  | .ok st => .ok (st.current, st.best, st.accepted)

end V2

/-! ### C7: rotation exhaustion leaves the slot unfilled and advances the cursor -/

/-- The claimed outcome of a special-duty slot nobody in the rotation can
take: one unfilled assignment with diagnostic notes is appended, the cursor
advances by exactly one modulo the rotation length, and nothing else (person
states, penalty) changes. -/
def RotationFailureOutcome (gs : GenState) (slot : ScheduleSlot) (L : ℕ)
    (r : GenState) : Prop :=
  r.bleach_cursor = (gs.bleach_cursor + 1) % (L : Int) ∧
  r.states = gs.states ∧
  r.total_penalty = gs.total_penalty ∧
  ∃ notes, r.assignments = gs.assignments ++
      [{ slot := slot, staff_id := OPEN_LABEL, notes := notes }] ∧
    "Bleach rotation unavailable" ∈ notes ∧ "Needs coverage" ∈ notes

/-- The claimed cursor behaviour: result cursor in `[0, L)`, the configured
cursor reduced modulo `L` before use, and every per-slot update preserving
the range. -/
def CursorClaim (staff : List StaffMember) (cfg : ScheduleConfig)
    (pto_entries : List PTOEntry) (rng : RngSpec) (r : ScheduleResult) : Prop :=
  (0 ≤ r.bleach_cursor ∧ r.bleach_cursor < cfg.bleach_rotation.length) ∧
  initialCursor cfg = cfg.bleach_cursor % (cfg.bleach_rotation.length : ℕ) ∧
  (∀ (gs : GenState) (slot : ScheduleSlot),
    0 ≤ gs.bleach_cursor → gs.bleach_cursor < cfg.bleach_rotation.length →
    0 ≤ (processSlot staff cfg pto_entries rng gs slot).bleach_cursor ∧
      (processSlot staff cfg pto_entries rng gs slot).bleach_cursor
        < cfg.bleach_rotation.length)

/-- The claimed starvation outcome: every special-duty slot unfilled with
its note, while non-special slots are processed independently of the
rotation list. -/
def EmptyRotationClaim (staff : List StaffMember) (cfg : ScheduleConfig)
    (pto_entries : List PTOEntry) (rng : RngSpec) (r : ScheduleResult) : Prop :=
  (∀ a ∈ r.assignments, a.slot.is_bleach = true →
    a.staff_id = OPEN_LABEL ∧ "Needs coverage" ∈ a.notes) ∧
  (∀ (rot : List String) (gs : GenState) (slot : ScheduleSlot),
    slot.is_bleach = false →
    processSlot staff { cfg with bleach_rotation := rot } pto_entries rng gs slot
      = processSlot staff cfg pto_entries rng gs slot)

/-! ### C2: the tournament returns the first strictly-lowest-penalty trial -/

/-- `w` is an element of `l`; every trial before it has strictly greater
total penalty (so ties keep the first found), and every trial after it has
greater-or-equal total penalty: `w` is the first minimum of `l`. -/
def TournamentPick (l : List (ScheduleResult × Int)) (w : ScheduleResult × Int) :
    Prop :=
  ∃ l1 l2, l = l1 ++ w :: l2
    ∧ (∀ x ∈ l1, w.1.total_penalty < x.1.total_penalty)
    ∧ (∀ x ∈ l2, w.1.total_penalty ≤ x.1.total_penalty)

/-- The claimed tournament outcome: the winner is one of exactly
`max(1, trials)` trials, is the first strict minimum by total penalty, and
its penalty is less than or equal to that of every trial that ran. -/
def TournamentOutcome (staff : List StaffMember)
    (requirements : List DailyRequirement) (cfg : ScheduleConfig)
    (pto_entries : List PTOEntry) (trials : Int) (base_seed : Option Int)
    (stream : ℕ → Int) (genRng : Int → RngSpec) (r : ScheduleResult)
    (s : Int) : Prop :=
  ∃ l : List (ScheduleResult × Int),
    runTrials (fun i => tournamentTrial staff requirements cfg pto_entries
        genRng (trialSeed base_seed stream i)) (List.range (max 1 trials).toNat)
      = .ok l
    ∧ l.length = (max 1 trials).toNat
    ∧ TournamentPick l (r, s)
    ∧ ∀ i < (max 1 trials).toNat, ∀ t : ScheduleResult × Int,
        tournamentTrial staff requirements cfg pto_entries genRng
          (trialSeed base_seed stream i) = .ok t →
        r.total_penalty ≤ t.1.total_penalty

namespace V2

/-- What one refiner iteration may do: it either leaves the roster exactly
as it was (no swap, or a reverted swap), or it has performed a swap that
kept both affected people's full new slot lists feasible, scored no worse
than the best score seen, and became the new best; the best score never
increases. -/
def LSStepSpec (scoreFn : List Row → CfgV2 → ℚ) (cfg : CfgV2)
    (st st' : LSState) : Prop :=
  st'.best ≤ st.best ∧
  (st'.current = st.current ∧ st'.best = st.best ∨
    (st'.best = scoreFn st'.current cfg ∧ scoreFn st'.current cfg ≤ st.best ∧
      ∃ si sj, si ≠ sj
        ∧ feasible_for_staff si (slotsOf st'.current si) cfg = true
        ∧ feasible_for_staff sj (slotsOf st'.current sj) cfg = true))

/-- The claimed refiner behaviour: the returned score does not exceed the
starting roster's score, and every iteration obeys the keep/revert rule. -/
def RefinerClaim (scoreFn : List Row → CfgV2 → ℚ) (assignments : List Row)
    (cfg : CfgV2) (rnd : RndV2) (out : List Row × ℚ × ℕ) : Prop :=
  out.2.1 ≤ scoreFn assignments cfg ∧
  ∀ (roleIndices : List (String × List ℕ)) (keys : List String)
    (st st' : LSState),
    lsStep scoreFn cfg rnd roleIndices keys st = .ok st' →
    LSStepSpec scoreFn cfg st st'

end V2

/-- Every non-unfilled assignment's (person, date) pair avoids every leave
entry. -/
def LeaveRespected (pto_entries : List PTOEntry) (r : ScheduleResult) : Prop :=
  ∀ a ∈ r.assignments, a.staff_id ≠ OPEN_LABEL →
    ∀ e ∈ pto_entries, e.staff_id = a.staff_id → e.date ≠ a.slot.date

/-! ### C1: no double booking -/

/-- No person holds two non-unfilled assignments on the same calendar date. -/
def NoDoubleBooking (r : ScheduleResult) : Prop :=
  r.assignments.Pairwise (fun a b =>
    a.staff_id = b.staff_id → a.staff_id ≠ OPEN_LABEL → a.slot.date ≠ b.slot.date)

/-- The per-fold day-index invariant: distinct day indices per person among
filled assignments, each recorded in that person's state. -/
def DayInv (gs : GenState) : Prop :=
  gs.assignments.Pairwise (fun a b =>
    a.staff_id = b.staff_id → a.staff_id ≠ OPEN_LABEL →
      a.slot.day_index ≠ b.slot.day_index)
  ∧ ∀ a ∈ gs.assignments, a.staff_id ≠ OPEN_LABEL →
      a.slot.day_index ∈ (stateOf gs.states a.staff_id).worked_day_indices

/-- The date of a built slot is determined by its day index: day index
`6*w + p` (with `p < 6`) lands on calendar day `start + 7*w + p`. -/
def SlotDateChar (cfg : ScheduleConfig) (s : ScheduleSlot) : Prop :=
  s.date = cfg.start_date + ((7 * (s.day_index / 6) + s.day_index % 6 : ℕ) : Int)

/-! ### C5: the ordinary relaxation ladder, and the fate of its note -/

/-- First-success semantics of a tier walk: either some tier is the first
with at least one survivor and its candidate set and note are returned, or
every tier is empty and the walk returns no candidates and no note. -/
def LadderFirst (cfg : ScheduleConfig) (pto : List PTOEntry)
    (states : List (String × StaffState)) (slot : ScheduleSlot)
    (roleCands : List StaffMember) (tiers : List (IgnoreFlags × String))
    (res : List (StaffMember × StaffState) × Option String) : Prop :=
  (∃ pre tier post, tiers = pre ++ tier :: post
    ∧ (∀ t ∈ pre, gather_candidates cfg pto states slot roleCands t.1 = [])
    ∧ gather_candidates cfg pto states slot roleCands tier.1 ≠ []
    ∧ res = (gather_candidates cfg pto states slot roleCands tier.1, some tier.2))
  ∨ ((∀ t ∈ tiers, gather_candidates cfg pto states slot roleCands t.1 = [])
    ∧ res = ([], none))

/-! ### Concrete instances (counterexample and witnesses) -/

deriving instance DecidableEq for Except

/-- Requirements for the counterexample run: one RN on Saturdays, nothing
else. -/
def cexReq (d : String) : DailyRequirement :=
  { day_name := d, patient_count := 0, tech_openers := 0, tech_mids := 0,
    tech_closers := 0, rn_count := if d == "Sat" then 1 else 0, admin_count := 0 }

def cexReqs : List DailyRequirement := DAYS.map cexReq

def cexStaff : List StaffMember := [{ id := "r1", name := "R One", role := "RN" }]

def cexCfg : ScheduleConfig :=
  { clinic_name := "c", timezone := "tz", start_date := 0, weeks := 2,
    bleach_day := "Wed", bleach_rotation := [] }

def cexRm : ReqMap := (ensure_requirements cexReqs).toOption.getD []

def cexSlot0 : ScheduleSlot :=
  { day_index := 5, date := 5, day_name := "Sat", role := "RN",
    duty := "coverage", slot_index := 1, is_bleach := false }

def cexSlot1 : ScheduleSlot :=
  { day_index := 11, date := 12, day_name := "Sat", role := "RN",
    duty := "coverage", slot_index := 1, is_bleach := false }

def cexInit : GenState :=
  { states := initStates cexStaff, assignments := [],
    bleach_cursor := initialCursor cexCfg, total_penalty := 0, rngK := 0 }

/-- The generator state after the first Saturday: r1 worked day 5, so the
alternating-Saturday rule blocks them on day 11 at the strict tier. -/
def cexMid : GenState := processSlot cexStaff cexCfg [] idRng cexInit cexSlot0

/-- Unwrap a generation result (the default is never used by the concrete
runs below, which all succeed). -/
def resOf (e : Except String ScheduleResult) : ScheduleResult :=
  match e with
  | .ok r => r
  | .error _ => default

/-- Demo requirements: a single Wednesday technician closer. -/
def demoReq (d : String) : DailyRequirement :=
  { day_name := d, patient_count := 0, tech_openers := 0, tech_mids := 0,
    tech_closers := if d == "Wed" then 1 else 0, rn_count := 0, admin_count := 0 }

def demoReqs : List DailyRequirement := DAYS.map demoReq

def demoTech : StaffMember :=
  { id := "t1", name := "T One", role := "Tech", can_open := true,
    can_close := true, can_bleach := true }

def demoStaff : List StaffMember := [demoTech]

def demoCfg : ScheduleConfig :=
  { clinic_name := "c", timezone := "tz", start_date := 0, weeks := 1,
    bleach_day := "Wed", bleach_rotation := ["t1"] }

def demoPto : List PTOEntry := [{ staff_id := "t1", date := 4 }]

def demoRes : ScheduleResult :=
  resOf (generate_schedule demoStaff demoReqs demoCfg demoPto idRng (some 1))

def demo10Cfg : ScheduleConfig := { demoCfg with bleach_rotation := [] }

def demo10Res : ScheduleResult :=
  resOf (generate_schedule demoStaff demoReqs demo10Cfg demoPto idRng none)

def demoWinner : ScheduleResult × Int :=
  match run_tournament demoStaff demoReqs demoCfg demoPto 1 (some 5)
      (fun _ => 0) (fun _ => idRng) with
  | .ok p => p
  | .error _ => (default, 0)

def demoRestState : StaffState := { last_bleach_day := some 0 }

def demoBleachSlot : ScheduleSlot :=
  { day_index := 2, date := 2, day_name := "Wed", role := "Tech",
    duty := "close", slot_index := 1, is_bleach := true }

def ghostCfg : ScheduleConfig := { demoCfg with bleach_rotation := ["ghost"] }

def demoInit : GenState :=
  { states := initStates demoStaff, assignments := [], bleach_cursor := 0,
    total_penalty := 0, rngK := 0 }

def demoCfgV2 : V2.CfgV2 :=
  { staff := [{ id := "a" }, { id := "b" }], min_rest_hours := 0,
    max_hours_per_week := 1000 }

def demoRows : List V2.Row :=
  [({ role := "T", start_dt := 0, end_dt := 3600 }, some "a"),
   ({ role := "T", start_dt := 86400, end_dt := 90000 }, some "b")]

def demoRnd : V2.RndV2 :=
  { choice := fun _ l => l.headD "",
    sample := fun _ l => (l.headD 0, (l.drop 1).headD 0) }

def zeroScore : List V2.Row → V2.CfgV2 → ℚ := fun _ _ => 0

def demoLS : List V2.Row × ℚ × ℕ :=
  match V2.improve_by_swaps zeroScore demoRows demoCfgV2 1 demoRnd with
  | .ok o => o
  | .error _ => ([], 0, 0)

end ShiftPilot

namespace ShiftPilot

/-! ### Dictionary lemmas -/

theorem alGet_alSet_self {α : Type} (l : List (String × α)) (k : String) (v : α) :
    alGet (alSet l k v) k = some v := by
  induction l with
  | nil => simp [alGet, alSet]
  | cons kv rest ih =>
      by_cases h : kv.1 == k
      · simp [alSet, h, alGet, List.find?]
      · simpa [alSet, h, alGet, List.find?] using ih

theorem alGet_alSet_ne {α : Type} (l : List (String × α)) (k k' : String) (v : α)
    (h : k' ≠ k) : alGet (alSet l k v) k' = alGet l k' := by
  have hkk : (k == k') = false := by
    simp only [beq_eq_false_iff_ne, ne_eq]
    exact fun hh => h hh.symm
  induction l with
  | nil => simp [alGet, alSet, List.find?, hkk]
  | cons kv rest ih =>
      by_cases hk : kv.1 == k
      · have hk' : kv.1 = k := by simpa [beq_iff_eq] using hk
        have hkv : (kv.1 == k') = false := by
          simp only [beq_eq_false_iff_ne, ne_eq, hk']
          exact fun hh => h hh.symm
        simp [alSet, hk, alGet, List.find?, hkk, hkv]
      · by_cases hkv : kv.1 == k'
        · simp [alSet, hk, alGet, List.find?, hkv]
        · simpa [alSet, hk, alGet, List.find?, hkv] using ih

theorem stateOf_alSet_self (states : List (String × StaffState)) (sid : String)
    (st : StaffState) : stateOf (alSet states sid st) sid = st := by
  simp [stateOf, alGet_alSet_self]

theorem stateOf_alSet_ne (states : List (String × StaffState)) (sid sid' : String)
    (st : StaffState) (h : sid' ≠ sid) :
    stateOf (alSet states sid st) sid' = stateOf states sid' := by
  simp [stateOf, alGet_alSet_ne _ _ _ _ h]

/-- Every entry of a dict built by `alSet` insertions of `(m.id, m)` pairs
has its key equal to the stored member's id. -/
theorem alSet_keyCoherent {α : Type} (f : α → String) (l : List (String × α))
    (k : String) (v : α) (hv : f v = k) (hl : ∀ kv ∈ l, f kv.2 = kv.1) :
    ∀ kv ∈ alSet l k v, f kv.2 = kv.1 := by
  induction l with
  | nil => simp [alSet, hv]
  | cons kv rest ih =>
      by_cases h : kv.1 == k
      · intro x hx
        simp only [alSet, h, if_true] at hx
        rcases List.mem_cons.mp hx with rfl | hx
        · exact hv
        · exact hl _ (List.mem_cons_of_mem _ hx)
      · intro x hx
        simp only [alSet, h, if_false, Bool.false_eq_true] at hx
        rcases List.mem_cons.mp hx with rfl | hx
        · exact hl _ (List.mem_cons_self _ _)
        · exact ih (fun y hy => hl y (List.mem_cons_of_mem _ hy)) x hx

theorem staffDict_keyCoherent (staff : List StaffMember) :
    ∀ kv ∈ staffDict staff, kv.2.id = kv.1 := by
  suffices h : ∀ acc : List (String × StaffMember), (∀ kv ∈ acc, kv.2.id = kv.1) →
      ∀ kv ∈ staff.foldl (fun d m => alSet d m.id m) acc, kv.2.id = kv.1 by
    exact h [] (by simp)
  induction staff with
  | nil => intro acc hacc; simpa using hacc
  | cons m rest ih =>
      intro acc hacc
      exact ih _ (alSet_keyCoherent StaffMember.id acc m.id m rfl hacc)

theorem alGet_mem {α : Type} (l : List (String × α)) (k : String) (v : α)
    (h : alGet l k = some v) : (k, v) ∈ l := by
  induction l with
  | nil => simp [alGet] at h
  | cons kv rest ih =>
      by_cases hk : kv.1 == k
      · have hk' : kv.1 = k := by simpa [beq_iff_eq] using hk
        simp only [alGet, List.find?, hk, Option.map_some] at h
        have hkv : kv = (k, v) := by
          cases kv
          simp_all
        rw [← hkv]
        exact List.mem_cons_self _ _
      · simp only [alGet, List.find?, hk] at h
        exact List.mem_cons_of_mem _ (ih h)

/-! ### C3: tournament determinism and the seed-to-trial mapping -/

/-- C3: with a supplied base seed, `run_tournament` is a pure function of
(staff, requirements, config, leave set, base seed): its output does not
depend on the unpredictable entropy stream at all (so two runs on identical
inputs return identical RosterResults — same assignments, cursor, penalty,
stats and winning seed), and trial `i` deterministically uses seed
`base_seed + i`. -/
theorem tournament_deterministic (staff : List StaffMember)
    (requirements : List DailyRequirement) (cfg : ScheduleConfig)
    (pto_entries : List PTOEntry) (trials : Int) (b : Int)
    (stream1 stream2 : ℕ → Int) (genRng : Int → RngSpec) :
    run_tournament staff requirements cfg pto_entries trials (some b) stream1 genRng
      = run_tournament staff requirements cfg pto_entries trials (some b) stream2 genRng
    ∧ ∀ i : ℕ, trialSeed (some b) stream1 i = b + i :=
  ⟨rfl, fun _ => rfl⟩

/-! ### Consequences of a negative `violates_toggles` verdict -/

/-- If `violates_toggles` is `false`, post-bleach rest was not ignored, and
the toggle is on, then the slot is not the day right after the person's last
special duty. -/
theorem violates_false_post_rest (ms : StaffState) (slot : ScheduleSlot)
    (cfg : ScheduleConfig) (ig : IgnoreFlags)
    (htog : cfg.toggles.enforce_post_bleach_rest = true)
    (hig : ig.post = false)
    (hv : violates_toggles ms slot cfg ig = false) :
    ∀ lb, ms.last_bleach_day = some lb → slot.day_index ≠ lb + 1 := by
  intro lb hlb heq
  have htrue : violates_toggles ms slot cfg ig = true := by
    unfold violates_toggles
    simp only [Bool.or_eq_true]
    refine Or.inl (Or.inl (Or.inl (Or.inr ?_)))
    simp [htog, hig, hlb, heq]
  rw [htrue] at hv
  simp at hv

/-! ### C6: the special-duty ladder never relaxes post-special-duty rest -/

theorem scanRotationTier_sound (cfg : ScheduleConfig) (pto : List PTOEntry)
    (staff_map : List (String × StaffMember)) (states : List (String × StaffState))
    (cursor : Int) (slot : ScheduleSlot) (ig : IgnoreFlags)
    (m : StaffMember) (st : StaffState) (idx : ℕ)
    (hsel : scanRotationTier cfg pto staff_map states cursor slot ig
      = some (m, st, idx)) :
    (∃ rid, cfg.bleach_rotation.get? idx = some rid ∧ alGet staff_map rid = some m
      ∧ alGet states rid = some st)
    ∧ st.worked_day_indices.contains slot.day_index = false
    ∧ is_available m slot pto = true
    ∧ violates_toggles st slot cfg ig = false := by
  unfold scanRotationTier at hsel
  obtain ⟨offset, hmem, hf⟩ := List.exists_of_findSome?_eq_some hsel
  dsimp only at hf
  split at hf
  case h_1 => exact absurd hf (by simp)
  case h_2 rid hg =>
    split at hf
    case h_1 => exact absurd hf (by simp)
    case h_2 member hm =>
      split at hf
      case h_1 => exact absurd hf (by simp)
      case h_2 state hs =>
        simp at hf
        obtain ⟨h1, h2, h3, rfl, rfl, rfl⟩ := hf
        exact ⟨⟨rid, hg, hm, hs⟩, by simpa using h1, h2, h3⟩

theorem bleachTiers_post_false : ∀ t ∈ bleachTiers, t.1.post = false := by decide

/-- C6: whenever the special-duty rotation selects a person for a
special-duty slot — at any tier of the special-duty relaxation ladder — and
the post-special-duty-rest toggle is enabled, the selected person's last
special-duty day index is never exactly one less than the slot's day index:
that rule is never relaxed for special-duty slots. -/
theorem special_duty_rest_never_relaxed (cfg : ScheduleConfig)
    (pto : List PTOEntry) (staff_map : List (String × StaffMember))
    (states : List (String × StaffState)) (cursor : Int) (slot : ScheduleSlot)
    (m : StaffMember) (st : StaffState) (idx : ℕ) (note : Option String) (lb : ℕ)
    (htog : cfg.toggles.enforce_post_bleach_rest = true)
    (hsel : selectBleach cfg pto staff_map states cursor slot = some (m, st, idx, note))
    (hlb : st.last_bleach_day = some lb) :
    slot.day_index ≠ lb + 1 := by
  unfold selectBleach at hsel
  obtain ⟨tier, htier, hf⟩ := List.exists_of_findSome?_eq_some hsel
  rcases Option.map_eq_some'.mp hf with ⟨c, hscan, hc⟩
  obtain ⟨hm, hst, hidx, -⟩ : c.1 = m ∧ c.2.1 = st ∧ c.2.2 = idx ∧ tier.2 = note := by
    have := hc
    simp only [Prod.mk.injEq] at this
    tauto
  obtain ⟨-, -, -, hv⟩ := scanRotationTier_sound cfg pto staff_map states cursor
    slot tier.1 c.1 c.2.1 c.2.2 (by rw [hscan])
  rw [hst] at hv
  exact violates_false_post_rest st slot cfg tier.1 htog
    (bleachTiers_post_false tier htier) hv lb hlb

/-- C7: when a special-duty slot cannot be filled from a non-empty rotation
even at the loosest special-duty tier (`selectBleach` finds nobody), the
generator records an unfilled assignment with a diagnostic note, still
advances the rotation cursor by exactly one position modulo the rotation
length, and continues (person states and penalty untouched). -/
theorem rotation_exhaustion_advances_cursor (staff : List StaffMember)
    (cfg : ScheduleConfig) (pto : List PTOEntry) (rng : RngSpec)
    (gs : GenState) (slot : ScheduleSlot)
    (hb : slot.is_bleach = true) (hrot : cfg.bleach_rotation ≠ [])
    (hsel : selectBleach cfg pto (staffDict staff) gs.states gs.bleach_cursor slot
      = none) :
    RotationFailureOutcome gs slot cfg.bleach_rotation.length
      (processSlot staff cfg pto rng gs slot) := by
  have hne : cfg.bleach_rotation.isEmpty = false := by
    simpa [List.isEmpty_iff] using hrot
  unfold processSlot
  rw [hb, hne]
  simp only [Bool.not_false, Bool.and_self, if_true]
  rw [hsel]
  refine ⟨rfl, rfl, rfl, _, rfl, ?_, ?_⟩ <;> simp [optList]

/-! ### C8: the rotation cursor always lies in `[0, L)` -/

theorem applyAssign_cursor_bound (cfg : ScheduleConfig) (gs : GenState) (k : ℕ)
    (slot : ScheduleSlot) (m : StaffMember) (st : StaffState)
    (note : Option String) (rotIdx : Option ℕ) (bp : ℚ)
    (hL : 0 < cfg.bleach_rotation.length)
    (h0 : 0 ≤ gs.bleach_cursor) (h1 : gs.bleach_cursor < cfg.bleach_rotation.length) :
    0 ≤ (applyAssign cfg gs k slot m st note rotIdx bp).bleach_cursor ∧
      (applyAssign cfg gs k slot m st note rotIdx bp).bleach_cursor
        < cfg.bleach_rotation.length := by
  have hLZ : (cfg.bleach_rotation.length : Int) ≠ 0 := by
    exact_mod_cast Nat.pos_iff_ne_zero.mp hL
  have hLpos : (0 : Int) < cfg.bleach_rotation.length := by exact_mod_cast hL
  unfold applyAssign
  dsimp only
  split
  · cases rotIdx with
    | none => exact ⟨h0, h1⟩
    | some i => exact ⟨Int.emod_nonneg _ hLZ, Int.emod_lt_of_pos _ hLpos⟩
  · exact ⟨h0, h1⟩

theorem processSlot_cursor_bound (staff : List StaffMember)
    (cfg : ScheduleConfig) (pto : List PTOEntry) (rng : RngSpec)
    (gs : GenState) (slot : ScheduleSlot)
    (hL : 0 < cfg.bleach_rotation.length)
    (h0 : 0 ≤ gs.bleach_cursor) (h1 : gs.bleach_cursor < cfg.bleach_rotation.length) :
    0 ≤ (processSlot staff cfg pto rng gs slot).bleach_cursor ∧
      (processSlot staff cfg pto rng gs slot).bleach_cursor
        < cfg.bleach_rotation.length := by
  have hLZ : (cfg.bleach_rotation.length : Int) ≠ 0 := by
    exact_mod_cast Nat.pos_iff_ne_zero.mp hL
  have hLpos : (0 : Int) < cfg.bleach_rotation.length := by exact_mod_cast hL
  unfold processSlot
  dsimp only
  split
  · split
    · exact applyAssign_cursor_bound _ _ _ _ _ _ _ _ _ hL h0 h1
    · exact ⟨Int.emod_nonneg _ hLZ, Int.emod_lt_of_pos _ hLpos⟩
  · split
    · exact ⟨h0, h1⟩
    · split
      · exact ⟨h0, h1⟩
      · exact applyAssign_cursor_bound _ _ _ _ _ _ _ _ _ hL h0 h1

theorem foldl_cursor_bound (staff : List StaffMember) (cfg : ScheduleConfig)
    (pto : List PTOEntry) (rng : RngSpec) (slots : List ScheduleSlot)
    (hL : 0 < cfg.bleach_rotation.length) :
    ∀ gs : GenState, 0 ≤ gs.bleach_cursor →
      gs.bleach_cursor < cfg.bleach_rotation.length →
      0 ≤ (slots.foldl (processSlot staff cfg pto rng) gs).bleach_cursor ∧
        (slots.foldl (processSlot staff cfg pto rng) gs).bleach_cursor
          < cfg.bleach_rotation.length := by
  induction slots with
  | nil => intro gs h0 h1; exact ⟨h0, h1⟩
  | cons s rest ih =>
      intro gs h0 h1
      obtain ⟨h0', h1'⟩ := processSlot_cursor_bound staff cfg pto rng gs s hL h0 h1
      exact ih _ h0' h1'

/-- C8: for a non-empty rotation of length `L`, the configured cursor is
reduced modulo `L` before the slot loop starts, every per-slot update keeps
the cursor in `[0, L)`, and the cursor returned in the `ScheduleResult`
lies in `[0, L)`. -/
theorem cursor_always_in_range (staff : List StaffMember)
    (requirements : List DailyRequirement) (cfg : ScheduleConfig)
    (pto_entries : List PTOEntry) (rng : RngSpec) (rng_seed : Option Int)
    (r : ScheduleResult) (hrot : cfg.bleach_rotation ≠ [])
    (hr : generate_schedule staff requirements cfg pto_entries rng rng_seed
      = .ok r) :
    CursorClaim staff cfg pto_entries rng r := by
  unfold CursorClaim
  have hL : 0 < cfg.bleach_rotation.length := List.length_pos.mpr hrot
  have hLZ : (cfg.bleach_rotation.length : Int) ≠ 0 := by
    exact_mod_cast Nat.pos_iff_ne_zero.mp hL
  have hLpos : (0 : Int) < cfg.bleach_rotation.length := by exact_mod_cast hL
  have hne : cfg.bleach_rotation.isEmpty = false := by
    simpa [List.isEmpty_iff] using hrot
  have hinit : initialCursor cfg = cfg.bleach_cursor % (cfg.bleach_rotation.length : ℕ) := by
    simp [initialCursor, hne]
  refine ⟨?_, hinit, fun gs slot => processSlot_cursor_bound staff cfg pto_entries rng gs slot hL⟩
  unfold generate_schedule at hr
  split at hr
  · exact absurd hr (by simp)
  · simp only [Except.ok.injEq] at hr
    subst hr
    dsimp only
    exact foldl_cursor_bound staff cfg pto_entries rng _ hL _
      (by rw [hinit]; exact Int.emod_nonneg _ hLZ)
      (by rw [hinit]; exact Int.emod_lt_of_pos _ hLpos)

/-! ### C10: an empty rotation starves every special-duty slot -/

theorem pickScored_rotation_independent (cfg : ScheduleConfig) (rot : List String)
    (rng : RngSpec) (k : ℕ) (slot : ScheduleSlot)
    (cands : List (StaffMember × StaffState)) (hb : slot.is_bleach = false) :
    pickScored { cfg with bleach_rotation := rot } rng k slot cands
      = pickScored cfg rng k slot cands := by
  simp [pickScored, hb]

theorem applyAssign_rotation_independent (cfg : ScheduleConfig) (rot : List String)
    (gs : GenState) (k : ℕ) (slot : ScheduleSlot) (m : StaffMember)
    (st : StaffState) (note : Option String) (rotIdx : Option ℕ) (bp : ℚ)
    (hb : slot.is_bleach = false) :
    applyAssign { cfg with bleach_rotation := rot } gs k slot m st note rotIdx bp
      = applyAssign cfg gs k slot m st note rotIdx bp := by
  simp [applyAssign, hb]

/-- A non-special slot is processed identically for every rotation list: the
rotation can only influence special-duty slots. -/
theorem processSlot_rotation_independent (staff : List StaffMember)
    (cfg : ScheduleConfig) (rot : List String) (pto : List PTOEntry)
    (rng : RngSpec) (gs : GenState) (slot : ScheduleSlot)
    (hb : slot.is_bleach = false) :
    processSlot staff { cfg with bleach_rotation := rot } pto rng gs slot
      = processSlot staff cfg pto rng gs slot := by
  unfold processSlot
  simp only [hb, Bool.false_and, Bool.false_eq_true, if_false, ite_false]
  have hcand : candidatesFor { cfg with bleach_rotation := rot } pto gs.states slot
      = candidatesFor cfg pto gs.states slot := rfl
  rw [hcand]
  simp only [pickScored_rotation_independent cfg rot rng _ slot _ hb,
    applyAssign_rotation_independent cfg rot gs _ slot _ _ _ _ _ hb]

/-- With an empty rotation, a special-duty slot is always recorded unfilled
(with the sentinel and a "Needs coverage" note) and nothing else changes. -/
theorem processSlot_bleach_empty_rotation (staff : List StaffMember)
    (cfg : ScheduleConfig) (pto : List PTOEntry) (rng : RngSpec)
    (gs : GenState) (slot : ScheduleSlot)
    (hrot : cfg.bleach_rotation = []) (hb : slot.is_bleach = true) :
    ∃ notes,
      (processSlot staff cfg pto rng gs slot).assignments
        = gs.assignments ++ [{ slot := slot, staff_id := OPEN_LABEL, notes := notes }]
      ∧ "Needs coverage" ∈ notes
      ∧ (processSlot staff cfg pto rng gs slot).states = gs.states
      ∧ (processSlot staff cfg pto rng gs slot).bleach_cursor = gs.bleach_cursor
      ∧ (processSlot staff cfg pto rng gs slot).total_penalty = gs.total_penalty := by
  have hne : cfg.bleach_rotation.isEmpty = true := by simp [hrot]
  unfold processSlot
  simp only [hb, hne, Bool.not_true, Bool.and_false, Bool.false_eq_true, if_false,
    if_true, ite_true, ite_false]
  exact ⟨_, rfl, by simp, trivial, trivial, trivial⟩

theorem applyAssign_assignments (cfg : ScheduleConfig) (gs : GenState) (k : ℕ)
    (slot : ScheduleSlot) (m : StaffMember) (st : StaffState)
    (note : Option String) (rotIdx : Option ℕ) (bp : ℚ) :
    (applyAssign cfg gs k slot m st note rotIdx bp).assignments
      = gs.assignments ++ [{ slot := slot, staff_id := m.id, notes := optList note }] :=
  rfl

/-- Every processed slot appends exactly one assignment, for that slot. -/
theorem processSlot_appends (staff : List StaffMember) (cfg : ScheduleConfig)
    (pto : List PTOEntry) (rng : RngSpec) (gs : GenState) (slot : ScheduleSlot) :
    ∃ a : Assignment, (processSlot staff cfg pto rng gs slot).assignments
      = gs.assignments ++ [a] ∧ a.slot = slot := by
  unfold processSlot
  dsimp only
  split
  · split
    · exact ⟨_, applyAssign_assignments _ _ _ _ _ _ _ _ _, rfl⟩
    · exact ⟨_, rfl, rfl⟩
  · split
    · exact ⟨_, rfl, rfl⟩
    · split
      · exact ⟨_, rfl, rfl⟩
      · exact ⟨_, applyAssign_assignments _ _ _ _ _ _ _ _ _, rfl⟩

theorem fold_empty_rotation_inv (staff : List StaffMember) (cfg : ScheduleConfig)
    (pto : List PTOEntry) (rng : RngSpec) (slots : List ScheduleSlot)
    (hrot : cfg.bleach_rotation = []) :
    ∀ gs : GenState,
      (∀ a ∈ gs.assignments, a.slot.is_bleach = true →
        a.staff_id = OPEN_LABEL ∧ "Needs coverage" ∈ a.notes) →
      ∀ a ∈ (slots.foldl (processSlot staff cfg pto rng) gs).assignments,
        a.slot.is_bleach = true →
        a.staff_id = OPEN_LABEL ∧ "Needs coverage" ∈ a.notes := by
  induction slots with
  | nil => intro gs h; exact h
  | cons s rest ih =>
      intro gs h
      refine ih (processSlot staff cfg pto rng gs s) ?_
      by_cases hb : s.is_bleach = true
      · obtain ⟨notes, heq, hmem, -, -, -⟩ :=
          processSlot_bleach_empty_rotation staff cfg pto rng gs s hrot hb
        intro a ha hab
        rw [heq] at ha
        rcases List.mem_append.mp ha with ha | ha
        · exact h a ha hab
        · rcases List.mem_singleton.mp ha with rfl
          exact ⟨rfl, hmem⟩
      · obtain ⟨a0, heq, hslot⟩ := processSlot_appends staff cfg pto rng gs s
        intro a ha hab
        rw [heq] at ha
        rcases List.mem_append.mp ha with ha | ha
        · exact h a ha hab
        · rcases List.mem_singleton.mp ha with rfl
          rw [hslot] at hab
          exact absurd hab hb

/-- C10: with an empty special-duty rotation, every special-duty slot is
left unfilled (the `OPEN` sentinel with a "Needs coverage" note) even when
admissible candidates exist — special-duty slots are never handed to the
ordinary candidate scorer — while non-special slots are processed exactly as
they would be under any other rotation list. -/
theorem empty_rotation_starves_special_duty (staff : List StaffMember)
    (requirements : List DailyRequirement) (cfg : ScheduleConfig)
    (pto_entries : List PTOEntry) (rng : RngSpec) (rng_seed : Option Int)
    (r : ScheduleResult) (hrot : cfg.bleach_rotation = [])
    (hr : generate_schedule staff requirements cfg pto_entries rng rng_seed = .ok r) :
    EmptyRotationClaim staff cfg pto_entries rng r := by
  unfold EmptyRotationClaim
  refine ⟨?_, fun rot gs slot hb =>
    processSlot_rotation_independent staff cfg rot pto_entries rng gs slot hb⟩
  unfold generate_schedule at hr
  split at hr
  · exact absurd hr (by simp)
  · simp only [Except.ok.injEq] at hr
    subst hr
    exact fold_empty_rotation_inv staff cfg pto_entries rng _ hrot _ (by simp)

theorem pickBest_acc_spec (l : List (ScheduleResult × Int)) :
    ∀ b : ScheduleResult × Int,
      (pickBest (some b) l = some b
        ∧ ∀ x ∈ l, b.1.total_penalty ≤ x.1.total_penalty)
      ∨ (∃ b' l1 l2, pickBest (some b) l = some b' ∧ l = l1 ++ b' :: l2
          ∧ b'.1.total_penalty < b.1.total_penalty
          ∧ (∀ x ∈ l1, b'.1.total_penalty < x.1.total_penalty)
          ∧ (∀ x ∈ l2, b'.1.total_penalty ≤ x.1.total_penalty)) := by
  induction l with
  | nil => intro b; left; exact ⟨rfl, by simp⟩
  | cons x xs ih =>
      intro b
      by_cases hx : x.1.total_penalty < b.1.total_penalty
      · rcases ih x with ⟨h1, h2⟩ | ⟨b', l1, l2, h1, h2, h3, h4, h5⟩
        · right
          refine ⟨x, [], xs, ?_, by simp, hx, by simp, h2⟩
          simpa [pickBest, hx] using h1
        · right
          refine ⟨b', x :: l1, l2, ?_, by simp [h2], lt_trans h3 hx, ?_, h5⟩
          · simpa [pickBest, hx] using h1
          · intro y hy
            rcases List.mem_cons.mp hy with rfl | hy
            · exact h3
            · exact h4 y hy
      · rcases ih b with ⟨h1, h2⟩ | ⟨b', l1, l2, h1, h2, h3, h4, h5⟩
        · left
          refine ⟨by simpa [pickBest, hx] using h1, ?_⟩
          intro y hy
          rcases List.mem_cons.mp hy with rfl | hy
          · exact le_of_not_lt hx
          · exact h2 y hy
        · right
          refine ⟨b', x :: l1, l2, by simpa [pickBest, hx] using h1,
            by simp [h2], h3, ?_, h5⟩
          intro y hy
          rcases List.mem_cons.mp hy with rfl | hy
          · exact lt_of_lt_of_le h3 (le_of_not_lt hx)
          · exact h4 y hy

theorem pickBest_none_spec (l : List (ScheduleResult × Int))
    (w : ScheduleResult × Int) (h : pickBest none l = some w) :
    TournamentPick l w := by
  cases l with
  | nil => exact absurd h (by simp [pickBest])
  | cons x xs =>
      have h' : pickBest (some x) xs = some w := by simpa [pickBest] using h
      rcases pickBest_acc_spec xs x with ⟨h1, h2⟩ | ⟨b', l1, l2, h1, h2, h3, h4, h5⟩
      · rw [h'] at h1
        cases h1
        exact ⟨[], xs, rfl, by simp, h2⟩
      · rw [h'] at h1
        cases h1
        refine ⟨x :: l1, l2, by simp [h2], ?_, h5⟩
        intro y hy
        rcases List.mem_cons.mp hy with rfl | hy
        · exact h3
        · exact h4 y hy

theorem TournamentPick.le_all (l : List (ScheduleResult × Int))
    (w : ScheduleResult × Int) (h : TournamentPick l w) :
    ∀ x ∈ l, w.1.total_penalty ≤ x.1.total_penalty := by
  obtain ⟨l1, l2, rfl, h1, h2⟩ := h
  intro x hx
  rcases List.mem_append.mp hx with hx | hx
  · exact le_of_lt (h1 x hx)
  · rcases List.mem_cons.mp hx with rfl | hx
    · exact le_refl _
    · exact h2 x hx

theorem runTrials_length (f : ℕ → Except String (ScheduleResult × Int)) :
    ∀ (l : List ℕ) (xs : List (ScheduleResult × Int)),
      runTrials f l = .ok xs → xs.length = l.length := by
  intro l
  induction l with
  | nil => intro xs h; cases h; rfl
  | cons i is ih =>
      intro xs h
      unfold runTrials at h
      cases hfi : f i with
      | error e => rw [hfi] at h; exact absurd h (by simp)
      | ok x =>
          rw [hfi] at h
          cases hrest : runTrials f is with
          | error e => rw [hrest] at h; exact absurd h (by simp)
          | ok xs' =>
              rw [hrest] at h
              cases h
              simp [ih _ hrest]

theorem runTrials_forward (f : ℕ → Except String (ScheduleResult × Int)) :
    ∀ (l : List ℕ) (xs : List (ScheduleResult × Int)),
      runTrials f l = .ok xs → ∀ i ∈ l, ∃ x ∈ xs, f i = .ok x := by
  intro l
  induction l with
  | nil => intro xs _ i hi; exact absurd hi (by simp)
  | cons j is ih =>
      intro xs h i hi
      unfold runTrials at h
      cases hfj : f j with
      | error e => rw [hfj] at h; exact absurd h (by simp)
      | ok x =>
          rw [hfj] at h
          cases hrest : runTrials f is with
          | error e => rw [hrest] at h; exact absurd h (by simp)
          | ok xs' =>
              rw [hrest] at h
              cases h
              rcases List.mem_cons.mp hi with rfl | hi
              · exact ⟨x, List.mem_cons_self _ _, hfj⟩
              · obtain ⟨y, hy, hfy⟩ := ih _ hrest i hi
                exact ⟨y, List.mem_cons_of_mem _ hy, hfy⟩

theorem runTrials_backward (f : ℕ → Except String (ScheduleResult × Int)) :
    ∀ (l : List ℕ) (xs : List (ScheduleResult × Int)),
      runTrials f l = .ok xs → ∀ x ∈ xs, ∃ i ∈ l, f i = .ok x := by
  intro l
  induction l with
  | nil => intro xs h x hx; cases h; exact absurd hx (by simp)
  | cons j is ih =>
      intro xs h x hx
      unfold runTrials at h
      cases hfj : f j with
      | error e => rw [hfj] at h; exact absurd h (by simp)
      | ok y =>
          rw [hfj] at h
          cases hrest : runTrials f is with
          | error e => rw [hrest] at h; exact absurd h (by simp)
          | ok xs' =>
              rw [hrest] at h
              cases h
              rcases List.mem_cons.mp hx with rfl | hx
              · exact ⟨j, List.mem_cons_self _ _, hfj⟩
              · obtain ⟨i, hi, hfi⟩ := ih _ hrest x hx
                exact ⟨i, List.mem_cons_of_mem _ hi, hfi⟩

theorem tournamentTrial_seed (staff : List StaffMember)
    (requirements : List DailyRequirement) (cfg : ScheduleConfig)
    (pto_entries : List PTOEntry) (genRng : Int → RngSpec) (seed : Int)
    (x : ScheduleResult × Int)
    (h : tournamentTrial staff requirements cfg pto_entries genRng seed = .ok x) :
    x.1.seed = some x.2 := by
  unfold tournamentTrial at h
  cases hg : generate_schedule staff requirements cfg pto_entries (genRng seed)
      (some seed) with
  | error e => rw [hg] at h; exact absurd h (by simp [Except.map])
  | ok r =>
      rw [hg] at h
      simp only [Except.map, Except.ok.injEq] at h
      subst h
      rfl

/-- C2: `run_tournament` runs exactly `max(1, trials)` independent trials
and returns the trial whose total penalty is strictly the lowest, keeping
the first found on ties; consequently the returned result's total penalty is
less than or equal to the total penalty of every individual trial it ran. -/
theorem tournament_returns_min (staff : List StaffMember)
    (requirements : List DailyRequirement) (cfg : ScheduleConfig)
    (pto_entries : List PTOEntry) (trials : Int) (base_seed : Option Int)
    (stream : ℕ → Int) (genRng : Int → RngSpec) (r : ScheduleResult) (s : Int)
    (hr : run_tournament staff requirements cfg pto_entries trials base_seed
      stream genRng = .ok (r, s)) :
    TournamentOutcome staff requirements cfg pto_entries trials base_seed
      stream genRng r s := by
  unfold TournamentOutcome
  unfold run_tournament tournamentCore at hr
  cases htr : runTrials (fun i => tournamentTrial staff requirements cfg
      pto_entries genRng (trialSeed base_seed stream i))
      (List.range (max 1 trials).toNat) with
  | error e => rw [htr] at hr; exact absurd hr (by simp)
  | ok l =>
      rw [htr] at hr
      dsimp only at hr
      cases hpb : pickBest none l with
      | none => rw [hpb] at hr; exact absurd hr (by simp)
      | some w =>
          rw [hpb] at hr
          simp only [Except.ok.injEq, Prod.mk.injEq] at hr
          obtain ⟨hr1, hr2⟩ := hr
          have hpick : TournamentPick l w := pickBest_none_spec l w hpb
          have hwmem : w ∈ l := by
            obtain ⟨l1, l2, rfl, -, -⟩ := hpick
            exact List.mem_append.mpr (Or.inr (List.mem_cons_self _ _))
          have hseed : w.1.seed = some w.2 := by
            obtain ⟨i, -, hfi⟩ := runTrials_backward _ _ _ htr w hwmem
            exact tournamentTrial_seed staff requirements cfg pto_entries
              genRng _ w hfi
          have hw : w = (r, s) := by
            cases w with
            | mk w1 w2 =>
                subst hr2
                cases w1
                simp only at hseed
                subst hseed
                simp only [Prod.mk.injEq]
                exact ⟨hr1, trivial⟩
          subst hw
          refine ⟨l, rfl, runTrials_length _ _ _ htr ▸ by simp, hpick, ?_⟩
          intro i hi t ht
          obtain ⟨x, hx, hfx⟩ := runTrials_forward _ _ _ htr i (by simpa using hi)
          rw [ht] at hfx
          cases hfx
          exact TournamentPick.le_all l _ hpick _ hx

namespace V2

/-! ### C9: refiner non-regression and the keep/revert rule -/

theorem set_self_of_get? {α : Type} :
    ∀ (l : List α) (i : ℕ) (a : α), l.get? i = some a → l.set i a = l := by
  intro l
  induction l with
  | nil => intro i a h; simp at h
  | cons x xs ih =>
      intro i a h
      cases i with
      | zero =>
          simp only [List.get?] at h
          cases h
          rfl
      | succ n =>
          simp only [List.get?] at h
          simp [List.set, ih n a h]

/-- Undoing a double `set` restores the original roster. -/
theorem set_swap_revert {α : Type} (l : List α) (i j : ℕ) (a b : α) (x y : α)
    (hij : i ≠ j) (ha : l.get? i = some a) (hb : l.get? j = some b) :
    (((l.set i x).set j y).set i a).set j b = l := by
  have h1 : ((l.set i x).set j y).set i a = ((l.set i x).set i a).set j y :=
    List.set_comm _ _ _ (fun h => hij h.symm)
  rw [h1, List.set_set, List.set_set, set_self_of_get? l i a ha,
    set_self_of_get? l j b hb]

theorem lsStep_spec (scoreFn : List Row → CfgV2 → ℚ) (cfg : CfgV2) (rnd : RndV2)
    (roleIndices : List (String × List ℕ)) (keys : List String)
    (st st' : LSState) (h : lsStep scoreFn cfg rnd roleIndices keys st = .ok st') :
    LSStepSpec scoreFn cfg st st' := by
  unfold lsStep at h
  by_cases hk : keys.isEmpty
  · rw [if_pos hk] at h
    exact absurd h (by simp)
  · rw [if_neg hk] at h
    dsimp only at h
    cases hri : alGet roleIndices (rnd.choice st.k keys) with
    | none => rw [hri] at h; exact absurd h (by simp)
    | some idxs =>
        rw [hri] at h
        dsimp only at h
        by_cases hlen : idxs.length < 2
        · rw [if_pos hlen] at h
          cases h
          exact ⟨le_refl _, Or.inl ⟨rfl, rfl⟩⟩
        · rw [if_neg hlen] at h
          cases hgi : st.current.get? (rnd.sample (st.k + 1) idxs).1 with
          | none => rw [hgi] at h; exact absurd h (by simp)
          | some rowi =>
              rw [hgi] at h
              dsimp only at h
              cases hgj : st.current.get? (rnd.sample (st.k + 1) idxs).2 with
              | none => rw [hgj] at h; exact absurd h (by simp)
              | some rowj =>
                  rw [hgj] at h
                  dsimp only at h
                  cases hsi : rowi.2 with
                  | none =>
                      rw [hsi] at h
                      cases h
                      exact ⟨le_refl _, Or.inl ⟨rfl, rfl⟩⟩
                  | some si =>
                      rw [hsi] at h
                      dsimp only at h
                      cases hsj : rowj.2 with
                      | none =>
                          rw [hsj] at h
                          cases h
                          exact ⟨le_refl _, Or.inl ⟨rfl, rfl⟩⟩
                      | some sj =>
                          rw [hsj] at h
                          dsimp only at h
                          have hgi' : st.current.get? (rnd.sample (st.k + 1) idxs).1
                              = some (rowi.1, some si) := by
                            rw [hgi, ← hsi]
                          have hgj' : st.current.get? (rnd.sample (st.k + 1) idxs).2
                              = some (rowj.1, some sj) := by
                            rw [hgj, ← hsj]
                          by_cases hss : si == sj
                          · rw [if_pos hss] at h
                            cases h
                            exact ⟨le_refl _, Or.inl ⟨rfl, rfl⟩⟩
                          · rw [if_neg hss] at h
                            have hij : (rnd.sample (st.k + 1) idxs).1
                                ≠ (rnd.sample (st.k + 1) idxs).2 := by
                              intro he
                              rw [he, hgj'] at hgi'
                              simp only [Option.some.injEq, Prod.mk.injEq,
                                Option.some.injEq] at hgi'
                              exact hss (by simp [hgi'.2])
                            have hrev :
                                ((((st.current.set (rnd.sample (st.k + 1) idxs).1
                                    (rowi.1, some sj)).set (rnd.sample (st.k + 1) idxs).2
                                    (rowj.1, some si)).set (rnd.sample (st.k + 1) idxs).1
                                    (rowi.1, some si)).set (rnd.sample (st.k + 1) idxs).2
                                    (rowj.1, some sj)) = st.current :=
                              set_swap_revert st.current _ _ _ _ _ _ hij hgi' hgj'
                            by_cases hfeas : feasible_for_staff si
                                (slotsOf ((st.current.set (rnd.sample (st.k + 1) idxs).1
                                  (rowi.1, some sj)).set (rnd.sample (st.k + 1) idxs).2
                                  (rowj.1, some si)) si) cfg
                                && feasible_for_staff sj
                                (slotsOf ((st.current.set (rnd.sample (st.k + 1) idxs).1
                                  (rowi.1, some sj)).set (rnd.sample (st.k + 1) idxs).2
                                  (rowj.1, some si)) sj) cfg
                            · rw [if_pos hfeas] at h
                              by_cases hsc : scoreFn ((st.current.set
                                  (rnd.sample (st.k + 1) idxs).1 (rowi.1, some sj)).set
                                  (rnd.sample (st.k + 1) idxs).2 (rowj.1, some si)) cfg
                                  ≤ st.best
                              · rw [if_pos hsc] at h
                                cases h
                                refine ⟨hsc, Or.inr ⟨rfl, hsc, si, sj, ?_, ?_, ?_⟩⟩
                                · intro he
                                  exact hss (by simp [he])
                                · exact (Bool.and_eq_true_iff.mp hfeas).1
                                · exact (Bool.and_eq_true_iff.mp hfeas).2
                              · rw [if_neg hsc] at h
                                cases h
                                exact ⟨le_refl _, Or.inl ⟨hrev, rfl⟩⟩
                            · rw [if_neg hfeas] at h
                              cases h
                              exact ⟨le_refl _, Or.inl ⟨hrev, rfl⟩⟩

theorem lsLoop_best_le (scoreFn : List Row → CfgV2 → ℚ) (cfg : CfgV2)
    (rnd : RndV2) (roleIndices : List (String × List ℕ)) (keys : List String) :
    ∀ (n : ℕ) (st st' : LSState),
      lsLoop scoreFn cfg rnd roleIndices keys n st = .ok st' →
      st'.best ≤ st.best := by
  intro n
  induction n with
  | zero =>
      intro st st' h
      cases h
      exact le_refl _
  | succ n ih =>
      intro st st' h
      unfold lsLoop at h
      cases hs : lsStep scoreFn cfg rnd roleIndices keys st with
      | error e => rw [hs] at h; exact absurd h (by simp)
      | ok st1 =>
          rw [hs] at h
          exact le_trans (ih st1 st' h)
            (lsStep_spec scoreFn cfg rnd roleIndices keys st st1 hs).1

/-- C9: whenever the refiner returns, its returned score is less than or
equal to the score of the roster it started from; and each iteration keeps
a swap only when both affected people's full new slot lists remain feasible
and the new aggregate score is less than or equal to the best score seen —
in every other case the roster is exactly its pre-swap self. -/
theorem refiner_non_regression (scoreFn : List Row → CfgV2 → ℚ)
    (assignments : List Row) (cfg : CfgV2) (iterations : ℕ) (rnd : RndV2)
    (out : List Row × ℚ × ℕ)
    (h : improve_by_swaps scoreFn assignments cfg iterations rnd = .ok out) :
    RefinerClaim scoreFn assignments cfg rnd out := by
  unfold RefinerClaim
  refine ⟨?_, fun ri ks st st' hs => lsStep_spec scoreFn cfg rnd ri ks st st' hs⟩
  unfold improve_by_swaps at h
  dsimp only at h
  cases hl : lsLoop scoreFn cfg rnd (buildRoleIndices assignments)
      ((buildRoleIndices assignments).map (fun kv => kv.1)) iterations
      { current := assignments, best := scoreFn assignments cfg,
        accepted := 0, k := 0 } with
  | error e => rw [hl] at h; exact absurd h (by simp)
  | ok stf =>
      rw [hl] at h
      cases h
      exact lsLoop_best_le scoreFn cfg rnd _ _ iterations _ stf hl

end V2

/-! ### Soundness of candidate selection (for C1 and C4) -/

theorem is_available_pto (m : StaffMember) (slot : ScheduleSlot)
    (pto : List PTOEntry) (h : is_available m slot pto = true) :
    ptoHas pto m.id slot.date = false := by
  unfold is_available at h
  by_cases hp : ptoHas pto m.id slot.date
  · rw [if_neg] at h
    · rw [if_pos hp] at h
      exact absurd h (by simp)
    · intro hfalse
      rw [hfalse] at h
      exact absurd h (by simp)
  · simpa using hp

theorem gather_sound (cfg : ScheduleConfig) (pto : List PTOEntry)
    (states : List (String × StaffState)) (slot : ScheduleSlot)
    (roleCands : List StaffMember) (ig : IgnoreFlags) (m : StaffMember)
    (st : StaffState)
    (h : (m, st) ∈ gather_candidates cfg pto states slot roleCands ig) :
    st = stateOf states m.id
    ∧ st.worked_day_indices.contains slot.day_index = false
    ∧ is_available m slot pto = true := by
  unfold gather_candidates at h
  obtain ⟨member, -, hf⟩ := List.mem_filterMap.mp h
  dsimp only at hf
  by_cases hw : (stateOf states member.id).worked_day_indices.contains slot.day_index
  · rw [if_pos hw] at hf
    exact absurd hf (by simp)
  · rw [if_neg hw] at hf
    by_cases ha : is_available member slot pto
    · rw [if_neg (by simp [ha])] at hf
      by_cases hv : violates_toggles (stateOf states member.id) slot cfg ig
      · rw [if_pos hv] at hf
        exact absurd hf (by simp)
      · rw [if_neg hv] at hf
        simp only [Option.some.injEq, Prod.mk.injEq] at hf
        obtain ⟨rfl, rfl⟩ := hf
        exact ⟨rfl, by simpa using hw, ha⟩
    · rw [if_pos (by simp [ha])] at hf
      exact absurd hf (by simp)

theorem ladderScan_sub (cfg : ScheduleConfig) (pto : List PTOEntry)
    (states : List (String × StaffState)) (slot : ScheduleSlot)
    (roleCands : List StaffMember) :
    ∀ (tiers : List (IgnoreFlags × String)) (x : StaffMember × StaffState),
      x ∈ (ladderScan cfg pto states slot roleCands tiers).1 →
      ∃ ig, x ∈ gather_candidates cfg pto states slot roleCands ig := by
  intro tiers
  induction tiers with
  | nil => intro x hx; exact absurd hx (by simp [ladderScan])
  | cons t rest ih =>
      intro x hx
      unfold ladderScan at hx
      by_cases he : (gather_candidates cfg pto states slot roleCands t.1).isEmpty
      · rw [if_pos he] at hx
        exact ih x hx
      · rw [if_neg he] at hx
        exact ⟨t.1, hx⟩

theorem candidatesFor_sub (cfg : ScheduleConfig) (pto : List PTOEntry)
    (states : List (String × StaffState)) (slot : ScheduleSlot)
    (roleCands : List StaffMember) (x : StaffMember × StaffState)
    (hx : x ∈ (candidatesFor cfg pto states slot roleCands).1) :
    ∃ ig, x ∈ gather_candidates cfg pto states slot roleCands ig := by
  unfold candidatesFor at hx
  by_cases he : (gather_candidates cfg pto states slot roleCands {}).isEmpty
  · rw [if_pos he] at hx
    exact ladderScan_sub cfg pto states slot roleCands ordinaryTiers x hx
  · rw [if_neg he] at hx
    exact ⟨{}, hx⟩

theorem pickScored_mem (cfg : ScheduleConfig) (rng : RngSpec) (k : ℕ)
    (slot : ScheduleSlot) (cands : List (StaffMember × StaffState))
    (r : ℚ × ℚ × StaffMember × StaffState)
    (h : pickScored cfg rng k slot cands = some r) :
    (r.2.2.1, r.2.2.2) ∈ cands := by
  unfold pickScored at h
  have haux : ∀ (l : List (ℚ × ℚ × StaffMember × StaffState))
      (acc : Option (ℚ × ℚ × StaffMember × StaffState)),
      l.foldl (fun best cur =>
        match best with
        | none => some cur
        | some b =>
            if cur.1 < b.1 || (cur.1 == b.1 && decide (cur.2.2.1.id < b.2.2.1.id))
            then some cur else some b) acc = some r →
      acc = some r ∨ r ∈ l := by
    intro l
    induction l with
    | nil => intro acc h'; exact Or.inl h'
    | cons y ys ih =>
        intro acc h'
        rcases ih _ h' with hacc | hmem
        · cases acc with
          | none =>
              simp only at hacc
              cases hacc
              exact Or.inr (List.mem_cons_self _ _)
          | some b =>
              simp only at hacc
              by_cases hcmp : y.1 < b.1 || (y.1 == b.1 && decide (y.2.2.1.id < b.2.2.1.id))
              · rw [if_pos hcmp] at hacc
                cases hacc
                exact Or.inr (List.mem_cons_self _ _)
              · rw [if_neg hcmp] at hacc
                exact Or.inl hacc
        · exact Or.inr (List.mem_cons_of_mem _ hmem)
  rcases haux _ _ h with hacc | hmem
  · exact absurd hacc (by simp)
  · obtain ⟨c, hc, hcr⟩ := List.mem_map.mp hmem
    have hr22 : r.2.2 = c.2 := by rw [← hcr]
    show r.2.2 ∈ cands
    obtain ⟨hlt, heq⟩ := List.mem_enum hc
    rw [hr22, heq]
    exact List.getElem_mem _

theorem selectBleach_sound (staff : List StaffMember) (cfg : ScheduleConfig)
    (pto : List PTOEntry) (states : List (String × StaffState))
    (cursor : Int) (slot : ScheduleSlot) (m : StaffMember) (st : StaffState)
    (idx : ℕ) (note : Option String)
    (hsel : selectBleach cfg pto (staffDict staff) states cursor slot
      = some (m, st, idx, note)) :
    st = stateOf states m.id
    ∧ st.worked_day_indices.contains slot.day_index = false
    ∧ is_available m slot pto = true := by
  unfold selectBleach at hsel
  obtain ⟨tier, -, hf⟩ := List.exists_of_findSome?_eq_some hsel
  rcases Option.map_eq_some'.mp hf with ⟨c, hscan, hc⟩
  obtain ⟨hm, hst, hidx, -⟩ : c.1 = m ∧ c.2.1 = st ∧ c.2.2 = idx ∧ tier.2 = note := by
    have := hc
    simp only [Prod.mk.injEq] at this
    tauto
  obtain ⟨⟨rid, -, hmm, hss⟩, hw, ha, -⟩ := scanRotationTier_sound cfg pto
    (staffDict staff) states cursor slot tier.1 c.1 c.2.1 c.2.2 (by rw [hscan])
  have hrid : m.id = rid := by
    have hcoh := staffDict_keyCoherent staff (rid, c.1) (alGet_mem _ _ _ hmm)
    rw [← hm]
    exact hcoh
  have hstate : stateOf states m.id = st := by
    rw [hrid]
    unfold stateOf
    rw [hss, ← hst]
    rfl
  rw [hm] at ha
  rw [hst] at hw
  exact ⟨hstate.symm, hw, ha⟩

theorem applyAssign_states (cfg : ScheduleConfig) (gs : GenState) (k : ℕ)
    (slot : ScheduleSlot) (m : StaffMember) (st : StaffState)
    (note : Option String) (rotIdx : Option ℕ) (bp : ℚ) :
    ∃ st3 : StaffState,
      (applyAssign cfg gs k slot m st note rotIdx bp).states
        = alSet gs.states m.id st3
      ∧ st3.worked_day_indices = st.worked_day_indices ++ [slot.day_index] := by
  unfold applyAssign
  dsimp only
  refine ⟨_, rfl, ?_⟩
  split <;> split <;> rfl

/-- Per-slot case analysis: a processed slot either leaves all person states
untouched and appends an unfilled (OPEN) assignment, or appends a filled
assignment for a person who was admissible, not yet working that day, and
whose recorded state gains exactly that day index. -/
theorem processSlot_char (staff : List StaffMember) (cfg : ScheduleConfig)
    (pto : List PTOEntry) (rng : RngSpec) (gs : GenState) (slot : ScheduleSlot) :
    ((processSlot staff cfg pto rng gs slot).states = gs.states ∧
      ∃ notes, (processSlot staff cfg pto rng gs slot).assignments
        = gs.assignments ++ [{ slot := slot, staff_id := OPEN_LABEL, notes := notes }])
    ∨ (∃ (m : StaffMember) (st st3 : StaffState) (note : Option String),
        st = stateOf gs.states m.id
        ∧ st.worked_day_indices.contains slot.day_index = false
        ∧ is_available m slot pto = true
        ∧ (processSlot staff cfg pto rng gs slot).assignments
            = gs.assignments ++ [{ slot := slot, staff_id := m.id, notes := optList note }]
        ∧ (processSlot staff cfg pto rng gs slot).states = alSet gs.states m.id st3
        ∧ st3.worked_day_indices = st.worked_day_indices ++ [slot.day_index]) := by
  unfold processSlot
  dsimp only
  split
  · -- special-duty branch with a non-empty rotation
    cases hsel : selectBleach cfg pto (staffDict staff) gs.states gs.bleach_cursor
        slot with
    | none =>
        exact Or.inl ⟨rfl, _, rfl⟩
    | some q =>
        obtain ⟨m, st, idx, note⟩ := q
        dsimp only
        obtain ⟨hst, hw, ha⟩ := selectBleach_sound staff cfg pto gs.states
          gs.bleach_cursor slot m st idx note hsel
        obtain ⟨st3, hs3, hw3⟩ := applyAssign_states cfg gs _ slot m st note
          (some idx) (preference_penalty m slot)
        exact Or.inr ⟨m, st, st3, note, hst, hw, ha,
          applyAssign_assignments _ _ _ _ _ _ _ _ _, hs3, hw3⟩
  · split
    · -- special-duty slot, empty rotation
      exact Or.inl ⟨rfl, _, rfl⟩
    · -- ordinary slot
      cases hpick : pickScored cfg rng
          (if (staffByRole staff slot.role).isEmpty = true then gs.rngK
            else gs.rngK + 1) slot
          (candidatesFor cfg pto gs.states slot
            (if (staffByRole staff slot.role).isEmpty = true then
              staffByRole staff slot.role
            else rng.shuffle gs.rngK (staffByRole staff slot.role))).1 with
      | none =>
          exact Or.inl ⟨rfl, _, rfl⟩
      | some q =>
          obtain ⟨jit, sc, m, st⟩ := q
          dsimp only
          have hmem : (m, st) ∈ (candidatesFor cfg pto gs.states slot
              (if (staffByRole staff slot.role).isEmpty = true then
                staffByRole staff slot.role
              else rng.shuffle gs.rngK (staffByRole staff slot.role))).1 :=
            pickScored_mem _ _ _ _ _ _ hpick
          obtain ⟨ig, hg⟩ := candidatesFor_sub _ _ _ _ _ _ hmem
          obtain ⟨hst, hw, ha⟩ := gather_sound _ _ _ _ _ _ _ _ hg
          obtain ⟨st3, hs3, hw3⟩ := applyAssign_states cfg gs _ slot m st none
            none _
          exact Or.inr ⟨m, st, st3, none, hst, hw, ha,
            applyAssign_assignments _ _ _ _ _ _ _ _ _, hs3, hw3⟩

/-! ### C4: leave (PTO) days are never assigned -/

theorem fold_leave_inv (staff : List StaffMember) (cfg : ScheduleConfig)
    (pto : List PTOEntry) (rng : RngSpec) :
    ∀ (slots : List ScheduleSlot) (gs : GenState),
      (∀ a ∈ gs.assignments, a.staff_id ≠ OPEN_LABEL →
        ptoHas pto a.staff_id a.slot.date = false) →
      ∀ a ∈ (slots.foldl (processSlot staff cfg pto rng) gs).assignments,
        a.staff_id ≠ OPEN_LABEL → ptoHas pto a.staff_id a.slot.date = false := by
  intro slots
  induction slots with
  | nil => intro gs h; exact h
  | cons s rest ih =>
      intro gs h
      refine ih (processSlot staff cfg pto rng gs s) ?_
      rcases processSlot_char staff cfg pto rng gs s with
        ⟨-, notes, heq⟩ | ⟨m, st, st3, note, -, -, ha, heq, -, -⟩
      · intro a hmem hopen
        rw [heq] at hmem
        rcases List.mem_append.mp hmem with hmem | hmem
        · exact h a hmem hopen
        · rcases List.mem_singleton.mp hmem with rfl
          exact absurd rfl hopen
      · intro a hmem hopen
        rw [heq] at hmem
        rcases List.mem_append.mp hmem with hmem | hmem
        · exact h a hmem hopen
        · rcases List.mem_singleton.mp hmem with rfl
          exact is_available_pto m s pto ha

/-- C4: a person with a leave entry for a date never receives an assignment
with that date, whatever relaxation tier produced the assignment: every
non-unfilled assignment's (person, date) pair avoids every leave entry. -/
theorem leave_days_never_assigned (staff : List StaffMember)
    (requirements : List DailyRequirement) (cfg : ScheduleConfig)
    (pto_entries : List PTOEntry) (rng : RngSpec) (rng_seed : Option Int)
    (r : ScheduleResult)
    (hr : generate_schedule staff requirements cfg pto_entries rng rng_seed
      = .ok r) :
    LeaveRespected pto_entries r := by
  unfold LeaveRespected
  have hmain : ∀ a ∈ r.assignments, a.staff_id ≠ OPEN_LABEL →
      ptoHas pto_entries a.staff_id a.slot.date = false := by
    unfold generate_schedule at hr
    split at hr
    · exact absurd hr (by simp)
    · simp only [Except.ok.injEq] at hr
      subst hr
      exact fold_leave_inv staff cfg pto_entries rng _ _ (by simp)
  intro a ha hopen e he hid hdate
  have := hmain a ha hopen
  unfold ptoHas at this
  rw [List.any_eq_false] at this
  exact this e he (by simp [hid, hdate])

theorem processSlot_DayInv (staff : List StaffMember) (cfg : ScheduleConfig)
    (pto : List PTOEntry) (rng : RngSpec) (gs : GenState) (slot : ScheduleSlot)
    (h : DayInv gs) : DayInv (processSlot staff cfg pto rng gs slot) := by
  obtain ⟨hpair, hworked⟩ := h
  rcases processSlot_char staff cfg pto rng gs slot with
    ⟨hstates, notes, heq⟩ | ⟨m, st, st3, note, hst, hw, -, heq, hstates, hw3⟩
  · constructor
    · rw [heq, List.pairwise_append]
      refine ⟨hpair, by simp, ?_⟩
      intro a hmem b hb
      rcases List.mem_singleton.mp hb with rfl
      intro hid hopen
      exact absurd hid hopen
    · intro a hmem hopen
      rw [heq] at hmem
      rw [hstates]
      rcases List.mem_append.mp hmem with hmem | hmem
      · exact hworked a hmem hopen
      · rcases List.mem_singleton.mp hmem with rfl
        exact absurd rfl hopen
  · have hnotmem : slot.day_index ∉ st.worked_day_indices := by
      simpa using hw
    constructor
    · rw [heq, List.pairwise_append]
      refine ⟨hpair, by simp, ?_⟩
      intro a hmem b hb
      rcases List.mem_singleton.mp hb with rfl
      intro hid hopen
      simp only at hid
      intro hday
      apply hnotmem
      have hmem2 := hworked a hmem hopen
      rw [hid, ← hst] at hmem2
      have hday' : a.slot.day_index = slot.day_index := hday
      rw [← hday']
      exact hmem2
    · intro a hmem hopen
      rw [heq] at hmem
      rw [hstates]
      rcases List.mem_append.mp hmem with hmem | hmem
      · by_cases hid : a.staff_id = m.id
        · rw [hid, stateOf_alSet_self, hw3]
          have := hworked a hmem hopen
          rw [hid, ← hst] at this
          exact List.mem_append_left _ this
        · rw [stateOf_alSet_ne _ _ _ _ hid]
          exact hworked a hmem hopen
      · rcases List.mem_singleton.mp hmem with rfl
        simp only
        rw [stateOf_alSet_self, hw3]
        exact List.mem_append_right _ (by simp)

theorem fold_DayInv (staff : List StaffMember) (cfg : ScheduleConfig)
    (pto : List PTOEntry) (rng : RngSpec) :
    ∀ (slots : List ScheduleSlot) (gs : GenState), DayInv gs →
      DayInv (slots.foldl (processSlot staff cfg pto rng) gs) := by
  intro slots
  induction slots with
  | nil => intro gs h; exact h
  | cons s rest ih =>
      intro gs h
      exact ih _ (processSlot_DayInv staff cfg pto rng gs s h)

theorem fold_assignment_slots (staff : List StaffMember) (cfg : ScheduleConfig)
    (pto : List PTOEntry) (rng : RngSpec) :
    ∀ (slots : List ScheduleSlot) (gs : GenState),
      ∀ a ∈ (slots.foldl (processSlot staff cfg pto rng) gs).assignments,
        a ∈ gs.assignments ∨ ∃ s ∈ slots, a.slot = s := by
  intro slots
  induction slots with
  | nil => intro gs a ha; exact Or.inl ha
  | cons s rest ih =>
      intro gs a ha
      rcases ih (processSlot staff cfg pto rng gs s) a ha with hmem | ⟨s', hs', heq⟩
      · obtain ⟨a0, heq0, hslot0⟩ := processSlot_appends staff cfg pto rng gs s
        rw [heq0] at hmem
        rcases List.mem_append.mp hmem with hmem | hmem
        · exact Or.inl hmem
        · rcases List.mem_singleton.mp hmem with rfl
          exact Or.inr ⟨s, List.mem_cons_self _ _, hslot0⟩
      · exact Or.inr ⟨s', List.mem_cons_of_mem _ hs', heq⟩

theorem buildDay_char (cfg : ScheduleConfig) (rm : ReqMap) (w p : ℕ)
    (name : String) (dIdx : ℕ) :
    ∀ s ∈ (buildDay cfg rm w p name dIdx).2,
      s.day_index = dIdx ∧ s.date = cfg.start_date + ((w * 7 + p : ℕ) : Int) := by
  intro s hs
  simp only [buildDay, List.mem_append, List.mem_map, List.mem_range] at hs
  rcases hs with (((⟨i, hi, rfl⟩ | ⟨i, hi, rfl⟩) | ⟨i, hi, rfl⟩) | ⟨i, hi, rfl⟩)
    | ⟨i, hi, rfl⟩ <;> exact ⟨rfl, rfl⟩

theorem buildWeek_char (cfg : ScheduleConfig) (rm : ReqMap) (w : ℕ) :
    ∀ s ∈ (buildWeek cfg rm w (6 * w)).2, SlotDateChar cfg s := by
  intro s hs
  simp only [buildWeek, List.mem_append] at hs
  have key : ∀ (p : ℕ) (rm' : ReqMap) (name : String), p < 6 →
      s ∈ (buildDay cfg rm' w p name (6 * w + p)).2 → SlotDateChar cfg s := by
    intro p rm' name hp hmem
    obtain ⟨hd, hdate⟩ := buildDay_char cfg rm' w p name (6 * w + p) s hmem
    unfold SlotDateChar
    rw [hd, hdate]
    congr 1
    congr 1
    omega
  rcases hs with ((((hmem | hmem) | hmem) | hmem) | hmem) | hmem
  · exact key 0 _ _ (by omega) (by simpa using hmem)
  · exact key 1 _ _ (by omega) (by simpa using hmem)
  · exact key 2 _ _ (by omega) (by simpa using hmem)
  · exact key 3 _ _ (by omega) (by simpa using hmem)
  · exact key 4 _ _ (by omega) (by simpa using hmem)
  · exact key 5 _ _ (by omega) (by simpa using hmem)

theorem buildWeeks_char (cfg : ScheduleConfig) :
    ∀ (wLeft w : ℕ) (rm : ReqMap),
      ∀ s ∈ (buildWeeks cfg rm w wLeft (6 * w)).2, SlotDateChar cfg s := by
  intro wLeft
  induction wLeft with
  | zero => intro w rm s hs; exact absurd hs (by simp [buildWeeks])
  | succ n ih =>
      intro w rm s hs
      have hs' : s ∈ (buildWeek cfg rm w (6 * w)).2
          ++ (buildWeeks cfg (buildWeek cfg rm w (6 * w)).1 (w + 1) n
            (6 * w + 6)).2 := hs
      rcases List.mem_append.mp hs' with hmem | hmem
      · exact buildWeek_char cfg rm w s hmem
      · have h6 : 6 * w + 6 = 6 * (w + 1) := by omega
        rw [h6] at hmem
        exact ih (w + 1) _ s hmem

theorem build_slots_char (cfg : ScheduleConfig) (rm : ReqMap) :
    ∀ s ∈ build_slots rm cfg, SlotDateChar cfg s := by
  intro s hs
  exact buildWeeks_char cfg cfg.weeks 0 rm s hs

/-- `n ↦ 7 * (n / 6) + n % 6` is injective, so within one horizon equal
dates force equal day indices. -/
theorem dayIndex_of_date_eq (m n : ℕ)
    (h : 7 * (m / 6) + m % 6 = 7 * (n / 6) + n % 6) : m = n := by
  omega

/-- C1: in every generated roster — for any staff list, requirements,
config, leave set and rng stream — no person holds two non-unfilled
assignments whose slots have the same calendar date. -/
theorem no_double_booking (staff : List StaffMember)
    (requirements : List DailyRequirement) (cfg : ScheduleConfig)
    (pto_entries : List PTOEntry) (rng : RngSpec) (rng_seed : Option Int)
    (r : ScheduleResult)
    (hr : generate_schedule staff requirements cfg pto_entries rng rng_seed
      = .ok r) :
    NoDoubleBooking r := by
  unfold generate_schedule at hr
  split at hr
  · exact absurd hr (by simp)
  · rename_i rm hrm
    simp only [Except.ok.injEq] at hr
    subst hr
    unfold NoDoubleBooking
    dsimp only
    have hinv : DayInv ((build_slots rm cfg).foldl
        (processSlot staff cfg pto_entries rng)
        { states := initStates staff, assignments := [],
          bleach_cursor := initialCursor cfg, total_penalty := 0, rngK := 0 }) :=
      fold_DayInv staff cfg pto_entries rng _ _ ⟨List.Pairwise.nil, by simp⟩
    have hslots := fold_assignment_slots staff cfg pto_entries rng
      (build_slots rm cfg)
      { states := initStates staff, assignments := [],
        bleach_cursor := initialCursor cfg, total_penalty := 0, rngK := 0 }
    refine List.Pairwise.imp_of_mem ?_ hinv.1
    intro a b hma hmb hday hid hopen hdate
    have hca : SlotDateChar cfg a.slot := by
      rcases hslots a hma with hmem | ⟨s, hs, heq⟩
      · exact absurd hmem (by simp)
      · rw [heq]
        exact build_slots_char cfg rm s hs
    have hcb : SlotDateChar cfg b.slot := by
      rcases hslots b hmb with hmem | ⟨s, hs, heq⟩
      · exact absurd hmem (by simp)
      · rw [heq]
        exact build_slots_char cfg rm s hs
    unfold SlotDateChar at hca hcb
    rw [hdate, hcb] at hca
    have : (7 * (a.slot.day_index / 6) + a.slot.day_index % 6 : ℕ)
        = 7 * (b.slot.day_index / 6) + b.slot.day_index % 6 := by
      have h2 := add_left_cancel hca
      exact_mod_cast h2.symm
    exact hday hid hopen (dayIndex_of_date_eq _ _ this)

theorem ladderScan_first (cfg : ScheduleConfig) (pto : List PTOEntry)
    (states : List (String × StaffState)) (slot : ScheduleSlot)
    (roleCands : List StaffMember) :
    ∀ tiers : List (IgnoreFlags × String),
      LadderFirst cfg pto states slot roleCands tiers
        (ladderScan cfg pto states slot roleCands tiers) := by
  intro tiers
  induction tiers with
  | nil => exact Or.inr ⟨by simp, rfl⟩
  | cons t rest ih =>
      unfold ladderScan
      by_cases he : (gather_candidates cfg pto states slot roleCands t.1).isEmpty
      · rw [if_pos he]
        have hemp : gather_candidates cfg pto states slot roleCands t.1 = [] :=
          List.isEmpty_iff.mp he
        rcases ih with ⟨pre, tier, post, h1, h2, h3, h4⟩ | ⟨h1, h2⟩
        · refine Or.inl ⟨t :: pre, tier, post, by simp [h1], ?_, h3, h4⟩
          intro x hx
          rcases List.mem_cons.mp hx with rfl | hx
          · exact hemp
          · exact h2 x hx
        · refine Or.inr ⟨?_, h2⟩
          intro x hx
          rcases List.mem_cons.mp hx with rfl | hx
          · exact hemp
          · exact h1 x hx
      · rw [if_neg he]
        exact Or.inl ⟨[], t, rest, rfl, by simp, by simpa [List.isEmpty_iff] using he,
          rfl⟩

/-- C5 (amended): for ordinary slots the relaxation ladder is applied only
when zero candidates pass with all rules active; the tiers are tried in the
source order — (1) ignore alternating-week cap, (2) also consecutive-day
cap, (3) also weekly day cap, (4) also post-special-duty rest — stopping at
the first tier with at least one survivor; however, the tier reached is NOT
recorded on the eventual assignment: a filled ordinary-slot assignment
always carries an empty notes list, so the ladder's tier note never appears
on a filled ordinary-slot assignment. -/
theorem ordinary_ladder_spec (staff : List StaffMember) (cfg : ScheduleConfig)
    (pto : List PTOEntry) (rng : RngSpec) (gs : GenState)
    (states : List (String × StaffState)) (slot : ScheduleSlot)
    (roleCands : List StaffMember) (a : Assignment) :
    (gather_candidates cfg pto states slot roleCands {} ≠ [] →
      candidatesFor cfg pto states slot roleCands
        = (gather_candidates cfg pto states slot roleCands {}, none)) ∧
    (gather_candidates cfg pto states slot roleCands {} = [] →
      candidatesFor cfg pto states slot roleCands
        = ladderScan cfg pto states slot roleCands ordinaryTiers ∧
      LadderFirst cfg pto states slot roleCands ordinaryTiers
        (ladderScan cfg pto states slot roleCands ordinaryTiers)) ∧
    (slot.is_bleach = false →
      (processSlot staff cfg pto rng gs slot).assignments
        = gs.assignments ++ [a] →
      a.staff_id ≠ OPEN_LABEL → a.notes = []) := by
  refine ⟨?_, ?_, ?_⟩
  · intro hne
    unfold candidatesFor
    rw [if_neg (by simpa [List.isEmpty_iff] using hne)]
  · intro hemp
    refine ⟨?_, ladderScan_first cfg pto states slot roleCands ordinaryTiers⟩
    unfold candidatesFor
    rw [if_pos (List.isEmpty_iff.mpr hemp)]
  · intro hb heq hopen
    unfold processSlot at heq
    dsimp only at heq
    rw [if_neg (by simp [hb])] at heq
    rw [if_neg (by simp [hb])] at heq
    cases hpick : pickScored cfg rng
        (if (staffByRole staff slot.role).isEmpty = true then gs.rngK
          else gs.rngK + 1) slot
        (candidatesFor cfg pto gs.states slot
          (if (staffByRole staff slot.role).isEmpty = true then
            staffByRole staff slot.role
          else rng.shuffle gs.rngK (staffByRole staff slot.role))).1 with
    | none =>
        rw [hpick] at heq
        dsimp only at heq
        have h2 := List.append_cancel_left heq
        simp only [List.cons.injEq, and_true] at h2
        rw [← h2] at hopen
        exact absurd rfl hopen
    | some q =>
        rw [hpick] at heq
        obtain ⟨jit, sc, m', st'⟩ := q
        dsimp only at heq
        rw [applyAssign_assignments] at heq
        have h2 := List.append_cancel_left heq
        simp only [List.cons.injEq, and_true] at h2
        rw [← h2]
        rfl

unseal Rat.add Rat.mul Rat.sub Rat.inv in
/-- C5 counterexample: on this concrete two-week run the second Saturday
slot has zero strict-tier candidates, the ladder stops at its first tier
(note "Relax: alt Saturdays"), the slot is then FILLED — and the produced
assignment carries an empty notes list, so the tier reached is not recorded
on the eventual assignment, contradicting the claim as stated. -/
theorem relax_note_not_recorded :
    build_slots cexRm cexCfg = [cexSlot0, cexSlot1]
    ∧ gather_candidates cexCfg [] cexMid.states cexSlot1
        (staffByRole cexStaff "RN") {} = []
    ∧ (candidatesFor cexCfg [] cexMid.states cexSlot1
        (staffByRole cexStaff "RN")).2 = some "Relax: alt Saturdays"
    ∧ (processSlot cexStaff cexCfg [] idRng cexMid cexSlot1).assignments.getLast?
        = some { slot := cexSlot1, staff_id := "r1", notes := [] }
    ∧ generate_schedule cexStaff cexReqs cexCfg [] idRng none
        = .ok { assignments := [{ slot := cexSlot0, staff_id := "r1", notes := [] },
                                { slot := cexSlot1, staff_id := "r1", notes := [] }],
                bleach_cursor := 0, total_penalty := 7 / 2,
                stats := [("r1", 2)], seed := none } :=
  ⟨rfl, rfl, rfl, rfl, by decide⟩

/-! ### Witnesses -/

theorem no_double_booking_witness : NoDoubleBooking demoRes :=
  no_double_booking demoStaff demoReqs demoCfg demoPto idRng (some 1) demoRes rfl

theorem leave_days_never_assigned_witness : LeaveRespected demoPto demoRes :=
  leave_days_never_assigned demoStaff demoReqs demoCfg demoPto idRng (some 1)
    demoRes rfl

theorem cursor_always_in_range_witness :
    CursorClaim demoStaff demoCfg demoPto idRng demoRes :=
  cursor_always_in_range demoStaff demoReqs demoCfg demoPto idRng (some 1)
    demoRes (by decide) rfl

theorem empty_rotation_witness :
    EmptyRotationClaim demoStaff demo10Cfg demoPto idRng demo10Res :=
  empty_rotation_starves_special_duty demoStaff demoReqs demo10Cfg demoPto
    idRng none demo10Res rfl rfl

theorem tournament_returns_min_witness :
    TournamentOutcome demoStaff demoReqs demoCfg demoPto 1 (some 5)
      (fun _ => 0) (fun _ => idRng) demoWinner.1 demoWinner.2 :=
  tournament_returns_min demoStaff demoReqs demoCfg demoPto 1 (some 5)
    (fun _ => 0) (fun _ => idRng) demoWinner.1 demoWinner.2 rfl

theorem special_duty_rest_witness : demoBleachSlot.day_index ≠ 0 + 1 :=
  special_duty_rest_never_relaxed demoCfg [] (staffDict demoStaff)
    [("t1", demoRestState)] 0 demoBleachSlot demoTech demoRestState 0 none 0
    rfl (by decide) rfl

theorem rotation_exhaustion_witness :
    RotationFailureOutcome demoInit demoBleachSlot ghostCfg.bleach_rotation.length
      (processSlot demoStaff ghostCfg [] idRng demoInit demoBleachSlot) :=
  rotation_exhaustion_advances_cursor demoStaff ghostCfg [] idRng demoInit
    demoBleachSlot rfl (by decide) rfl

unseal Rat.add Rat.mul Rat.sub Rat.inv in
theorem refiner_non_regression_witness :
    V2.RefinerClaim zeroScore demoRows demoCfgV2 demoRnd demoLS :=
  V2.refiner_non_regression zeroScore demoRows demoCfgV2 1 demoRnd demoLS rfl

end ShiftPilot

